import Mathlib

/-!
# R-tree lab (2SAOD_lab3.cpp): embedding and verified properties

The C++ program keeps a tree of `Node`s holding integer axis-aligned rectangles
and offers `insert`, `remove` and `nearestNeighbor`.

Modelling conventions

* `int` is a 32-bit two's complement integer whose arithmetic wraps around, as
  it does on the machines the program is built for.  Coordinates are `Int`s (the
  values of an `int` are those within `inInt32`); every `int` operation of the
  source (`-`, `*`, `+`) is followed by `wrap32`.
* `double` values are only ever produced from `int`s.  `area` yields the exact
  value of an `int`, and differences of two such values are exact in binary64,
  so they are modelled by `Int`.  `distance` yields `std::sqrt` of an `int`;
  on the non-negative 32-bit integers the correctly rounded square root is
  strictly increasing, so such a value is represented by its radicand
  (`Dist.sqrt n`), the square root of a negative `int` is `Dist.nan`, and
  `numeric_limits<double>::max()` is `Dist.dblMax`.
* Undefined behaviour (reading `rects[0]` of an empty vector, dereferencing a
  null pointer, iterator arithmetic past the end, returning the never assigned
  local `nearest`) is the result `none`.
* Pointers to nodes form a tree without sharing, so a node holds its children by
  value; a pointer into `children` is an index.
-/

namespace Lab3

/-! ## Machine integers and doubles -/

/-- Reduction of an integer to the 32-bit two's complement range. -/
def wrap32 (z : Int) : Int := (z + 2147483648) % 4294967296 - 2147483648

/-- The value lies in the range of `int`. -/
def inInt32 (z : Int) : Prop := -2147483648 ≤ z ∧ z ≤ 2147483647

instance (z : Int) : Decidable (inInt32 z) := by unfold inInt32; infer_instance

/-- The `double` values that the program compares as distances. -/
inductive Dist where
  | nan
  | sqrt (n : Nat)
  | dblMax
deriving DecidableEq, Repr

/-- The comparison `a < b` of two doubles. -/
def Dist.lt : Dist → Dist → Bool
  | .sqrt a, .sqrt b => decide (a < b)
  | .sqrt _, .dblMax => true
  | _, _ => false

/-- The comparison `a <= b` of two doubles. -/
def Dist.le : Dist → Dist → Bool
  | .sqrt a, .sqrt b => decide (a ≤ b)
  | .sqrt _, .dblMax => true
  | .dblMax, .dblMax => true
  | _, _ => false

/-! ## Data model -/

/-- The struct `Rectangle`; `operator==` is coordinate-wise equality. -/
structure Rectangle where
  x1 : Int
  y1 : Int
  x2 : Int
  y2 : Int
deriving DecidableEq, Repr

/-- The struct `Node`. -/
inductive Node where
  | mk (leaf : Bool) (rects : List Rectangle) (children : List Node)
deriving Repr

/-- Field `leaf`. -/
def Node.leaf : Node → Bool
  | .mk l _ _ => l

/-- Field `rects`. -/
def Node.rects : Node → List Rectangle
  | .mk _ r _ => r

/-- Field `children`. -/
def Node.children : Node → List Node
  | .mk _ _ c => c

/-! ## Geometry helpers -/

/-- Function `area`: `(r.x2 - r.x1) * (r.y2 - r.y1)` in `int`, converted to double. -/
def area (r : Rectangle) : Int :=
  wrap32 (wrap32 (r.x2 - r.x1) * wrap32 (r.y2 - r.y1))

/-- Function `unionRectangles`. -/
def unionRectangles (r1 r2 : Rectangle) : Rectangle :=
  ⟨min r1.x1 r2.x1, min r1.y1 r2.y1, max r1.x2 r2.x2, max r1.y2 r2.y2⟩

/-- Function `compareRectangles`. -/
def compareRectangles (r1 r2 : Rectangle) : Bool :=
  decide (area r1 < area r2)

/-- Method `overlap`. -/
def overlap (r1 r2 : Rectangle) : Bool :=
  !(decide (r1.x1 > r2.x2) || decide (r1.x2 < r2.x1) || decide (r1.y1 > r2.y2)
    || decide (r1.y2 < r2.y1))

/-- Method `distance`: `std::sqrt(dx * dx + dy * dy)`. -/
def distance (r1 r2 : Rectangle) : Dist :=
  let dx := max (max (wrap32 (r1.x1 - r2.x2)) 0) (max (wrap32 (r2.x1 - r1.x2)) 0)
  let dy := max (max (wrap32 (r1.y1 - r2.y2)) 0) (max (wrap32 (r2.y1 - r1.y2)) 0)
  let s := wrap32 (wrap32 (dx * dx) + wrap32 (dy * dy))
  if s < 0 then Dist.nan else Dist.sqrt s.toNat

/-! ## Sorting -/

/-- The order `std::sort` establishes for the comparator `compareRectangles`:
`b` must not come strictly before `a`. -/
def areaLE (a b : Rectangle) : Prop := compareRectangles b a = false

instance : DecidableRel areaLE := fun a b => by unfold areaLE; infer_instance

instance : IsTotal Rectangle areaLE :=
  ⟨fun a b => by
    simp only [areaLE, compareRectangles, decide_eq_false_iff_not, not_lt]
    exact le_total _ _⟩

instance : IsTrans Rectangle areaLE :=
  ⟨fun a b c => by
    simp only [areaLE, compareRectangles, decide_eq_false_iff_not, not_lt]
    exact le_trans⟩

/-- The call `std::sort(rects.begin(), rects.end(), compareRectangles)`, as the
insertion sort the library runs on short ranges (entries of equal area keep
their order).  The standard leaves the order of entries of equal area open;
the results below use only that the output is an area-sorted permutation of
the same length, except where a concrete run is evaluated, and those runs use
rectangles of pairwise different areas. -/
def sortRects (rects : List Rectangle) : List Rectangle :=
  List.insertionSort areaLE rects

/-! ## Tree operations -/

/-- Method `split`: the node after the call and the node `newNode` it allocates.
`newNode` comes from `new Node()`, which value-initialises it, so its `leaf`
is false also when a leaf is split.  In the branch for an internal node
`children.begin() + splitIndex` must not pass `children.end()`. -/
def split (node : Node) : Option (Node × Node) :=
  let sorted := sortRects node.rects
  let splitIndex := sorted.length / 2
  let newRects := sorted.drop splitIndex
  let kept := sorted.take splitIndex
  if node.leaf then
    some (.mk true kept node.children, .mk false newRects [])
  else if splitIndex ≤ node.children.length then
    some (.mk false kept (node.children.take splitIndex),
          .mk false newRects (node.children.drop splitIndex))
  else
    none

/-- The loop of `chooseSubtree` over the children from index `i` on;
`minIncrease = none` stands for `numeric_limits<double>::max()` and
`bestChild = none` for `nullptr`. -/
def chooseLoop (rect : Rectangle) :
    List Node → Nat → Option Int → Option Nat → Option (Option Nat)
  | [], _, _, bestChild => some bestChild
  | child :: rest, i, minIncrease, bestChild =>
    match child.rects with
    | [] => none
    | r0 :: _ =>
      let areaBefore := area r0
      let areaAfter := area (unionRectangles r0 rect)
      let increase := areaAfter - areaBefore
      match minIncrease with
      | none => chooseLoop rect rest (i + 1) (some increase) (some i)
      | some m =>
        if increase < m then chooseLoop rect rest (i + 1) (some increase) (some i)
        else chooseLoop rect rest (i + 1) (some m) bestChild

/-- Method `chooseSubtree`: the index of the chosen child, `some none` for `nullptr`. -/
def chooseSubtree (node : Node) (rect : Rectangle) : Option (Option Nat) :=
  chooseLoop rect node.children 0 none none

mutual
/-- Method `insert(Node*, Rectangle)`: the node after the call and the nodes
allocated by `split` during the call (they are linked nowhere). -/
def insert : Node → Rectangle → Option (Node × List Node)
  | .mk leaf rects children, rect =>
    if leaf then
      let rects1 := rects ++ [rect]
      if rects1.length > 5 then
        match split (.mk leaf rects1 children) with
        | some (node2, newNode) => some (node2, [newNode])
        | none => none
      else
        some (.mk leaf rects1 children, [])
    else
      match chooseSubtree (.mk leaf rects children) rect with
      | some (some i) =>
        match insertChild children i rect with
        | some (children1, made) => some (.mk leaf rects children1, made)
        | none => none
      | _ => none
/-- The call `insert(child, rect)` on the child at index `i`. -/
def insertChild : List Node → Nat → Rectangle → Option (List Node × List Node)
  | [], _, _ => none
  | child :: rest, 0, rect =>
    match insert child rect with
    | some (child1, made) => some (child1 :: rest, made)
    | none => none
  | child :: rest, i + 1, rect =>
    match insertChild rest i rect with
    | some (rest1, made) => some (child :: rest1, made)
    | none => none
end

mutual
/-- Method `remove(Node*, Rectangle)`: the returned flag and the node after the call. -/
def remove : Node → Rectangle → Option (Bool × Node)
  | .mk leaf rects children, rect =>
    if leaf then
      if rect ∈ rects then some (true, .mk leaf (rects.erase rect) children)
      else some (false, .mk leaf rects children)
    else
      match removeLoop children rect with
      | some (found, children1) => some (found, .mk leaf rects children1)
      | none => none
/-- The loop of `remove` over the children of an internal node. -/
def removeLoop : List Node → Rectangle → Option (Bool × List Node)
  | [], _ => some (false, [])
  | child :: rest, rect =>
    match child.rects with
    | [] => none
    | r0 :: _ =>
      if overlap r0 rect then
        match remove child rect with
        | none => none
        | some (true, child1) =>
          if child1.rects.isEmpty then some (true, rest) else some (true, child1 :: rest)
        | some (false, child1) =>
          match removeLoop rest rect with
          | some (found, rest1) => some (found, child1 :: rest1)
          | none => none
      else
        match removeLoop rest rect with
        | some (found, rest1) => some (found, child :: rest1)
        | none => none
end

/-- The loop of the leaf branch of `nearestNeighbor`; `nearest = none` is the
local that has not been assigned yet. -/
def nearestLoop (rect : Rectangle) : List Rectangle → Dist → Option Rectangle → Option Rectangle
  | [], _, nearest => nearest
  | r :: rest, minDist, nearest =>
    let dist := distance r rect
    if Dist.lt dist minDist then nearestLoop rect rest dist (some r)
    else nearestLoop rect rest minDist nearest

mutual
/-- Method `nearestNeighbor(Node*, Rectangle)`. -/
def nearestNeighbor : Node → Rectangle → Option Rectangle
  | .mk leaf rects children, rect =>
    if leaf then nearestLoop rect rects Dist.dblMax none
    else nearestChildren children rect Dist.dblMax none
/-- The loop of the internal branch of `nearestNeighbor`. -/
def nearestChildren : List Node → Rectangle → Dist → Option Rectangle → Option Rectangle
  | [], _, _, nearest => nearest
  | child :: rest, rect, minDist, nearest =>
    match nearestNeighbor child rect with
    | none => none
    | some childNearest =>
      let dist := distance childNearest rect
      if Dist.lt dist minDist then nearestChildren rest rect dist (some childNearest)
      else nearestChildren rest rect minDist nearest
end

/-! ## The class `RTree` -/

/-- The class `RTree`: its only member is `root`. -/
structure RTree where
  root : Node

/-- The constructor: a fresh node marked as a leaf. -/
def RTree.new : RTree := ⟨.mk true [] []⟩

/-- Public `insert(Rectangle)`. -/
def RTree.insert (t : RTree) (rect : Rectangle) : Option RTree :=
  match Lab3.insert t.root rect with
  | some (root1, _) => some ⟨root1⟩
  | none => none

/-- Public `remove(Rectangle)`; it discards the flag of `remove(root, rect)`. -/
def RTree.remove (t : RTree) (rect : Rectangle) : Option RTree :=
  match Lab3.remove t.root rect with
  | some (_, root1) => some ⟨root1⟩
  | none => none

/-- Public `nearestNeighbor(Rectangle)`. -/
def RTree.nearestNeighbor (t : RTree) (rect : Rectangle) : Option Rectangle :=
  Lab3.nearestNeighbor t.root rect

/-! ## Specification-level notions -/

mutual
/-- The rectangles an exhaustive walk from a node meets: the entries of its
leaves, left to right. -/
def leafEntries : Node → List Rectangle
  | .mk leaf rects children => if leaf then rects else leafEntriesList children
/-- Concatenation of `leafEntries` over a list of children. -/
def leafEntriesList : List Node → List Rectangle
  | [] => []
  | child :: rest => leafEntries child ++ leafEntriesList rest
end

/-- The rectangles stored in the index. -/
def RTree.stored (t : RTree) : List Rectangle := leafEntries t.root

/-- States of the index that a caller can produce: the constructor followed by
finitely many public `insert` and `remove` calls. -/
inductive Reachable : RTree → Prop
  | new : Reachable RTree.new
  | insert {t t1 : RTree} (rect : Rectangle) :
      Reachable t → RTree.insert t rect = some t1 → Reachable t1
  | remove {t t1 : RTree} (rect : Rectangle) :
      Reachable t → RTree.remove t rect = some t1 → Reachable t1

/-- The relation `Subnode n m`: node `n` is `m` or lies below `m`. -/
inductive Subnode : Node → Node → Prop
  | refl (n : Node) : Subnode n n
  | child {n c m : Node} : c ∈ m.children → Subnode n c → Subnode n m

/-- A caller that inserts the rectangles of a list one after another; the
second component records, call by call, the nodes `split` allocated. -/
def insertAll : Node → List Rectangle → Option (Node × List (List Node))
  | node, [] => some (node, [])
  | node, r :: rs =>
    match insert node r with
    | none => none
    | some (node1, made) =>
      match insertAll node1 rs with
      | none => none
      | some (node2, log) => some (node2, made :: log)

/-- No `int` operation of `distance r1 r2` overflows. -/
def distanceExact (r1 r2 : Rectangle) : Prop :=
  inInt32 (r1.x1 - r2.x2) ∧ inInt32 (r2.x1 - r1.x2) ∧
  inInt32 (r1.y1 - r2.y2) ∧ inInt32 (r2.y1 - r1.y2) ∧
  inInt32 (max (max (r1.x1 - r2.x2) 0) (max (r2.x1 - r1.x2) 0) ^ 2
    + max (max (r1.y1 - r2.y2) 0) (max (r2.y1 - r1.y2) 0) ^ 2)

instance (r1 r2 : Rectangle) : Decidable (distanceExact r1 r2) := by
  unfold distanceExact; infer_instance

/-- The demo driver's index after its three `insert` calls. -/
def demoTree : RTree := ⟨.mk true [⟨0, 0, 1, 1⟩, ⟨2, 2, 3, 3⟩, ⟨4, 4, 5, 5⟩] []⟩

/-- An index holding five rectangles of areas 1 to 5. -/
def fullTree : RTree :=
  ⟨.mk true [⟨0, 0, 1, 1⟩, ⟨0, 0, 2, 1⟩, ⟨0, 0, 3, 1⟩, ⟨0, 0, 4, 1⟩, ⟨0, 0, 5, 1⟩] []⟩

/-- A leaf just after the sixth `push_back`, entries in no particular order. -/
def sixLeaf : Node :=
  .mk true [⟨0, 0, 6, 1⟩, ⟨0, 0, 1, 1⟩, ⟨0, 0, 5, 1⟩, ⟨0, 0, 2, 1⟩, ⟨0, 0, 4, 1⟩,
    ⟨0, 0, 3, 1⟩] []

mutual
/-- Every leaf of the tree holds at least one rectangle and every internal node
has at least one child. -/
def populated : Node → Bool
  | .mk leaf rects children =>
    if leaf then !rects.isEmpty else !children.isEmpty && populatedList children
/-- The condition `populated` for every node of a list. -/
def populatedList : List Node → Bool
  | [] => true
  | child :: rest => populated child && populatedList rest
end

/-- A linear first-minimum scan by distance to the query: the first entry whose
distance is at most the distance of every entry. -/
def firstMinScan (q : Rectangle) (entries : List Rectangle) : Option Rectangle :=
  entries.find? (fun r => entries.all (fun s => Dist.le (distance r q) (distance s q)))

/-- The area increase `chooseSubtree` computes for a child,
`area(union(rects[0], rect)) - area(rects[0])`; it is read only for children
that hold a rectangle. -/
def increaseOf (rect : Rectangle) (child : Node) : Int :=
  match child.rects with
  | r0 :: _ => area (unionRectangles r0 rect) - area r0
  | [] => 0

/-- The value of `minDist` that goes with a value of `nearest` in the loops of
`nearestNeighbor`: `numeric_limits<double>::max()` before the first
assignment, afterwards the distance of the current best. -/
def bestDist (q : Rectangle) : Option Rectangle → Dist
  | none => Dist.dblMax
  | some b => distance b q

/-- An internal node over three leaves; for the rectangle (0,0,1,1) the area
increases of the children are 8, 0 and 0. -/
def threeChildNode : Node :=
  .mk false [] [.mk true [⟨2, 2, 3, 3⟩] [], .mk true [⟨0, 0, 2, 2⟩] [],
    .mk true [⟨0, 0, 1, 1⟩] []]

/-- An internal node over two leaves of which the second holds one rectangle. -/
def collapseNode : Node :=
  .mk false [] [.mk true [⟨0, 0, 1, 1⟩, ⟨0, 0, 2, 2⟩] [], .mk true [⟨4, 4, 5, 5⟩] []]

/-- An internal node over one leaf that holds (0,0,1,1). -/
def oneLeafTree : Node := .mk false [] [.mk true [⟨0, 0, 1, 1⟩] []]

/-- An internal node over two leaves, holding three rectangles in all. -/
def twoLeafTree : Node :=
  .mk false [] [.mk true [⟨4, 4, 5, 5⟩, ⟨0, 0, 1, 1⟩] [], .mk true [⟨2, 2, 3, 3⟩] []]

/-! ## Basic facts -/

theorem wrap32_of_inInt32 {z : Int} (h : inInt32 z) : wrap32 z = z := by
  unfold inInt32 at h
  unfold wrap32
  omega

theorem distance_nan_or_sqrt (r q : Rectangle) :
    distance r q = Dist.nan ∨ ∃ n, distance r q = Dist.sqrt n := by
  unfold distance
  simp only
  split
  · exact Or.inl rfl
  · exact Or.inr ⟨_, rfl⟩

/-- Without overflow `distance` is the square root of the exact squared gap norm. -/
theorem distance_of_exact {r1 r2 : Rectangle} (h : distanceExact r1 r2) :
    distance r1 r2 =
      Dist.sqrt (max (max (r1.x1 - r2.x2) 0) (max (r2.x1 - r1.x2) 0) ^ 2
        + max (max (r1.y1 - r2.y2) 0) (max (r2.y1 - r1.y2) 0) ^ 2).toNat := by
  obtain ⟨h1, h2, h3, h4, h5⟩ := h
  unfold distance
  rw [wrap32_of_inInt32 h1, wrap32_of_inInt32 h2, wrap32_of_inInt32 h3, wrap32_of_inInt32 h4]
  simp only
  generalize max (max (r1.x1 - r2.x2) 0) (max (r2.x1 - r1.x2) 0) = dx at h5 ⊢
  generalize max (max (r1.y1 - r2.y2) 0) (max (r2.y1 - r1.y2) 0) = dy at h5 ⊢
  have hx : 0 ≤ dx * dx := mul_self_nonneg dx
  have hy : 0 ≤ dy * dy := mul_self_nonneg dy
  have e : dx ^ 2 + dy ^ 2 = dx * dx + dy * dy := by ring
  rw [e] at h5 ⊢
  have h5a := h5.1
  have h5b := h5.2
  have hxr : inInt32 (dx * dx) := ⟨by omega, by omega⟩
  have hyr : inInt32 (dy * dy) := ⟨by omega, by omega⟩
  rw [wrap32_of_inInt32 hxr, wrap32_of_inInt32 hyr, wrap32_of_inInt32 h5]
  rw [if_neg (by omega)]

theorem Dist.le_trans_sqrt {a b c : Dist} (hab : Dist.le a b = true)
    (hbc : Dist.le b c = true) : Dist.le a c = true := by
  cases a <;> cases b <;> cases c <;> simp_all [Dist.le]
  omega

theorem areaLE_iff (a b : Rectangle) : areaLE a b ↔ area a ≤ area b := by
  simp [areaLE, compareRectangles]

theorem sortRects_perm (l : List Rectangle) : (sortRects l).Perm l :=
  List.perm_insertionSort areaLE l

theorem sortRects_sorted (l : List Rectangle) : (sortRects l).Sorted areaLE :=
  List.sorted_insertionSort areaLE l

theorem sortRects_length (l : List Rectangle) : (sortRects l).length = l.length :=
  List.length_insertionSort areaLE l

/-- What `insert` does to a leaf. -/
theorem insert_leaf (rects : List Rectangle) (children : List Node) (rect : Rectangle) :
    insert (.mk true rects children) rect =
      if 5 < (rects ++ [rect]).length then
        some (.mk true ((sortRects (rects ++ [rect])).take ((rects ++ [rect]).length / 2))
                children,
              [.mk false ((sortRects (rects ++ [rect])).drop ((rects ++ [rect]).length / 2)) []])
      else some (.mk true (rects ++ [rect]) children, []) := by
  simp only [insert, split, Node.leaf, Node.rects, Node.children, sortRects_length, gt_iff_lt,
    if_true]

/-- What `remove` does to a leaf. -/
theorem remove_leaf (rects : List Rectangle) (children : List Node) (rect : Rectangle) :
    remove (.mk true rects children) rect =
      if rect ∈ rects then some (true, .mk true (rects.erase rect) children)
      else some (false, .mk true rects children) := by
  simp [remove]

/-- Shape of every reachable index: the root is a leaf without children that
holds at most five rectangles. -/
theorem reachable_shape {t : RTree} (h : Reachable t) :
    ∃ rects, t = ⟨.mk true rects []⟩ ∧ rects.length ≤ 5 := by
  induction h with
  | new => exact ⟨[], rfl, by simp⟩
  | insert rect _ hstep ih =>
    obtain ⟨rects, rfl, hlen⟩ := ih
    simp only [RTree.insert, insert_leaf] at hstep
    by_cases hbig : 5 < (rects ++ [rect]).length
    · simp only [hbig, if_true, Option.some.injEq] at hstep
      subst hstep
      refine ⟨_, rfl, ?_⟩
      simp only [List.length_take, sortRects_length, List.length_append, List.length_singleton]
      omega
    · simp only [hbig, if_false, Option.some.injEq] at hstep
      subst hstep
      exact ⟨_, rfl, by omega⟩
  | remove rect _ hstep ih =>
    obtain ⟨rects, rfl, hlen⟩ := ih
    simp only [RTree.remove, remove_leaf] at hstep
    by_cases hmem : rect ∈ rects
    · simp only [hmem, if_true, Option.some.injEq] at hstep
      subst hstep
      refine ⟨_, rfl, ?_⟩
      have := List.length_erase_of_mem hmem
      omega
    · simp only [hmem, if_false, Option.some.injEq] at hstep
      subst hstep
      exact ⟨_, rfl, hlen⟩

theorem stored_leaf (rects : List Rectangle) (children : List Node) :
    RTree.stored ⟨.mk true rects children⟩ = rects := by
  simp [RTree.stored, leafEntries]

/-- On a reachable index `insert` always returns. -/
theorem insert_defined_of_reachable {t : RTree} (h : Reachable t) (rect : Rectangle) :
    ∃ t1, t.insert rect = some t1 := by
  obtain ⟨rects, rfl, _⟩ := reachable_shape h
  simp only [RTree.insert, insert_leaf]
  by_cases hbig : 5 < (rects ++ [rect]).length
  · simp only [hbig, if_true]
    exact ⟨_, rfl⟩
  · simp only [hbig, if_false]
    exact ⟨_, rfl⟩

/-- Below capacity the round trip works: when fewer than five rectangles are
stored and `R` is not among them, `insert` of `R` followed by `remove` of `R`
gives true and restores the index, and a further `remove` of `R` gives false. -/
theorem roundtrip_below_capacity {t : RTree} (h : Reachable t) (R : Rectangle)
    (hR : R ∉ t.stored) (hlen : t.stored.length < 5) :
    ∃ t1, t.insert R = some t1 ∧ remove t1.root R = some (true, t.root) ∧
      remove t.root R = some (false, t.root) := by
  obtain ⟨rects, rfl, _⟩ := reachable_shape h
  rw [stored_leaf] at hR hlen
  have hsmall : ¬ 5 < (rects ++ [R]).length := by
    simp only [List.length_append, List.length_singleton]
    omega
  refine ⟨⟨.mk true (rects ++ [R]) []⟩, ?_, ?_, ?_⟩
  · simp only [RTree.insert, insert_leaf, hsmall, if_false]
  · have herase : (rects ++ [R]).erase R = rects := by
      rw [List.erase_append_right _ hR]
      simp
    simp [remove_leaf, herase]
  · simp [remove_leaf, hR]

theorem nearestNeighbor_leaf (rects : List Rectangle) (children : List Node) (q : Rectangle) :
    nearestNeighbor (.mk true rects children) q = nearestLoop q rects Dist.dblMax none := by
  simp [nearestNeighbor]

theorem reachable_demoTree : Reachable demoTree :=
  Reachable.insert (t := ⟨.mk true [⟨0, 0, 1, 1⟩, ⟨2, 2, 3, 3⟩] []⟩) ⟨4, 4, 5, 5⟩
    (Reachable.insert (t := ⟨.mk true [⟨0, 0, 1, 1⟩] []⟩) ⟨2, 2, 3, 3⟩
      (Reachable.insert (t := RTree.new) ⟨0, 0, 1, 1⟩ Reachable.new rfl) rfl) rfl

theorem reachable_fullTree : Reachable fullTree :=
  Reachable.insert (t := ⟨.mk true [⟨0, 0, 1, 1⟩, ⟨0, 0, 2, 1⟩, ⟨0, 0, 3, 1⟩, ⟨0, 0, 4, 1⟩] []⟩)
    ⟨0, 0, 5, 1⟩
    (Reachable.insert (t := ⟨.mk true [⟨0, 0, 1, 1⟩, ⟨0, 0, 2, 1⟩, ⟨0, 0, 3, 1⟩] []⟩) ⟨0, 0, 4, 1⟩
      (Reachable.insert (t := ⟨.mk true [⟨0, 0, 1, 1⟩, ⟨0, 0, 2, 1⟩] []⟩) ⟨0, 0, 3, 1⟩
        (Reachable.insert (t := ⟨.mk true [⟨0, 0, 1, 1⟩] []⟩) ⟨0, 0, 2, 1⟩
          (Reachable.insert (t := RTree.new) ⟨0, 0, 1, 1⟩ Reachable.new rfl) rfl) rfl) rfl) rfl

/-- The scan of a leaf, started with a current best `b`, ends with an entry
that is at least as near as `b` and as every scanned entry. -/
theorem nearestLoop_min (q : Rectangle) :
    ∀ (l : List Rectangle) (b : Rectangle), distance b q ≠ Dist.nan →
      (∀ s ∈ l, distance s q ≠ Dist.nan) →
      ∃ r, nearestLoop q l (distance b q) (some b) = some r ∧ (r = b ∨ r ∈ l) ∧
        Dist.le (distance r q) (distance b q) = true ∧
        ∀ s ∈ l, Dist.le (distance r q) (distance s q) = true := by
  intro l
  induction l with
  | nil =>
    intro b hb _
    refine ⟨b, rfl, Or.inl rfl, ?_, by simp⟩
    rcases distance_nan_or_sqrt b q with h | ⟨n, h⟩
    · exact absurd h hb
    · simp [h, Dist.le]
  | cons a rest ih =>
    intro b hb hl
    have ha : distance a q ≠ Dist.nan := hl a (by simp)
    have hrest : ∀ s ∈ rest, distance s q ≠ Dist.nan := fun s hs => hl s (by simp [hs])
    obtain ⟨na, hna⟩ : ∃ n, distance a q = Dist.sqrt n := by
      rcases distance_nan_or_sqrt a q with h | h
      · exact absurd h ha
      · exact h
    obtain ⟨nb, hnb⟩ : ∃ n, distance b q = Dist.sqrt n := by
      rcases distance_nan_or_sqrt b q with h | h
      · exact absurd h hb
      · exact h
    by_cases hlt : Dist.lt (distance a q) (distance b q) = true
    · obtain ⟨r, hr, hmem, hra, hrs⟩ := ih a ha hrest
      refine ⟨r, ?_, ?_, ?_, ?_⟩
      · simp only [nearestLoop, hlt, if_true]
        exact hr
      · rcases hmem with h | h
        · exact Or.inr (by simp [h])
        · exact Or.inr (by simp [h])
      · have hab : Dist.le (distance a q) (distance b q) = true := by
          rw [hna, hnb] at hlt ⊢
          simp only [Dist.lt, Dist.le, decide_eq_true_eq] at hlt ⊢
          omega
        exact Dist.le_trans_sqrt hra hab
      · intro s hs
        rcases List.mem_cons.mp hs with h | h
        · rw [h]; exact hra
        · exact hrs s h
    · obtain ⟨r, hr, hmem, hrb, hrs⟩ := ih b hb hrest
      refine ⟨r, ?_, ?_, hrb, ?_⟩
      · simp only [nearestLoop, hlt]
        exact hr
      · rcases hmem with h | h
        · exact Or.inl h
        · exact Or.inr (by simp [h])
      · intro s hs
        rcases List.mem_cons.mp hs with h | h
        · have hba : Dist.le (distance b q) (distance a q) = true := by
            rw [hna, hnb] at hlt ⊢
            simp only [Dist.lt, Dist.le, decide_eq_true_eq] at hlt ⊢
            omega
          rw [h]
          exact Dist.le_trans_sqrt hrb hba
        · exact hrs s h

/-- The scan of a non-empty leaf whose entries all have a numeric distance to
the query returns an entry of minimum distance. -/
theorem nearestLoop_start (q : Rectangle) (l : List Rectangle) (hne : l ≠ [])
    (hl : ∀ s ∈ l, distance s q ≠ Dist.nan) :
    ∃ r, nearestLoop q l Dist.dblMax none = some r ∧ r ∈ l ∧
      ∀ s ∈ l, Dist.le (distance r q) (distance s q) = true := by
  cases l with
  | nil => exact absurd rfl hne
  | cons a rest =>
    have ha : distance a q ≠ Dist.nan := hl a (by simp)
    obtain ⟨na, hna⟩ : ∃ n, distance a q = Dist.sqrt n := by
      rcases distance_nan_or_sqrt a q with h | h
      · exact absurd h ha
      · exact h
    obtain ⟨r, hr, hmem, hra, hrs⟩ :=
      nearestLoop_min q rest a ha (fun s hs => hl s (by simp [hs]))
    refine ⟨r, ?_, ?_, ?_⟩
    · have hlt : Dist.lt (distance a q) Dist.dblMax = true := by simp [hna, Dist.lt]
      simp only [nearestLoop, hlt, if_true]
      exact hr
    · rcases hmem with h | h
      · simp [h]
      · simp [h]
    · intro s hs
      rcases List.mem_cons.mp hs with h | h
      · rw [h]; exact hra
      · exact hrs s h

/-! ## Claims -/

/-- C1 (as stated, refuted): some reachable non-empty index and some query have
no stored nearest neighbour returned. With the single entry (0,0,1,1) and the
query (50001,0,50002,1) the product `dx * dx` overflows `int`, the distance is
NaN, and `nearestNeighbor` returns its unassigned local. -/
theorem c1_overflow_counterexample :
    ¬ (∀ t : RTree, Reachable t → t.stored ≠ [] → ∀ q : Rectangle,
        ∃ r, t.nearestNeighbor q = some r ∧ r ∈ t.stored ∧
          ∀ s ∈ t.stored, Dist.le (distance r q) (distance s q) = true) := by
  intro h
  have hreach : Reachable ⟨.mk true [⟨0, 0, 1, 1⟩] []⟩ :=
    Reachable.insert (t := RTree.new) ⟨0, 0, 1, 1⟩ Reachable.new rfl
  obtain ⟨r, hr, _⟩ := h _ hreach (by simp [stored_leaf]) ⟨50001, 0, 50002, 1⟩
  have hnone : RTree.nearestNeighbor ⟨.mk true [⟨0, 0, 1, 1⟩] []⟩ ⟨50001, 0, 50002, 1⟩ = none := by
    decide
  rw [hnone] at hr
  cases hr

/-- C1 (amended): in every reachable non-empty index, for every query to which
each stored rectangle has a numeric (non-NaN) distance, `nearestNeighbor`
returns a stored rectangle whose distance to the query is at most the distance
of every stored rectangle. -/
theorem c1_nearestNeighbor_minimal (t : RTree) (ht : Reachable t) (hne : t.stored ≠ [])
    (q : Rectangle) (hq : ∀ s ∈ t.stored, distance s q ≠ Dist.nan) :
    ∃ r, t.nearestNeighbor q = some r ∧ r ∈ t.stored ∧
      ∀ s ∈ t.stored, Dist.le (distance r q) (distance s q) = true := by
  obtain ⟨rects, rfl, _⟩ := reachable_shape ht
  rw [stored_leaf] at hne hq ⊢
  simp only [RTree.nearestNeighbor, nearestNeighbor_leaf]
  exact nearestLoop_start q rects hne hq

/-- C1 witness: the demo index and the query (1,1,2,2). -/
theorem c1_nearestNeighbor_minimal_witness :
    Reachable demoTree ∧ demoTree.stored ≠ [] ∧
      (∀ s ∈ demoTree.stored, distance s ⟨1, 1, 2, 2⟩ ≠ Dist.nan) ∧
      ∃ r, demoTree.nearestNeighbor ⟨1, 1, 2, 2⟩ = some r ∧ r ∈ demoTree.stored ∧
        ∀ s ∈ demoTree.stored, Dist.le (distance r ⟨1, 1, 2, 2⟩) (distance s ⟨1, 1, 2, 2⟩) = true :=
  ⟨reachable_demoTree, by decide, by decide,
    c1_nearestNeighbor_minimal demoTree reachable_demoTree (by decide) ⟨1, 1, 2, 2⟩ (by decide)⟩

/-- C2 (code defect, evaluated): the index holding five rectangles of areas 1
to 5 is reachable; `insert` of (0,0,6,1) succeeds but leaves only the three
smallest rectangles stored, so the inserted rectangle and two of the earlier
ones are no longer stored. -/
theorem c2_insert_drops_upper_half :
    Reachable fullTree ∧
    fullTree.insert ⟨0, 0, 6, 1⟩
      = some ⟨.mk true [⟨0, 0, 1, 1⟩, ⟨0, 0, 2, 1⟩, ⟨0, 0, 3, 1⟩] []⟩ ∧
    (⟨0, 0, 6, 1⟩ : Rectangle)
      ∉ RTree.stored ⟨.mk true [⟨0, 0, 1, 1⟩, ⟨0, 0, 2, 1⟩, ⟨0, 0, 3, 1⟩] []⟩ ∧
    (⟨0, 0, 4, 1⟩ : Rectangle) ∈ fullTree.stored ∧
    (⟨0, 0, 4, 1⟩ : Rectangle)
      ∉ RTree.stored ⟨.mk true [⟨0, 0, 1, 1⟩, ⟨0, 0, 2, 1⟩, ⟨0, 0, 3, 1⟩] []⟩ :=
  ⟨reachable_fullTree, rfl, by decide, by decide, by decide⟩

/-- C3: in a reachable index, `remove` of a stored rectangle `R` returns true
and erases exactly the first entry equal to `R`: the stored list splits as
`l1 ++ R :: l2` with `R` not in `l1`, it becomes `l1 ++ l2`, and the number of
copies of `R` drops by one. -/
theorem c3_remove_stored (t : RTree) (ht : Reachable t) (R : Rectangle)
    (hR : R ∈ t.stored) :
    ∃ root1, remove t.root R = some (true, root1) ∧ t.remove R = some ⟨root1⟩ ∧
      (RTree.stored ⟨root1⟩).count R + 1 = t.stored.count R ∧
      ∃ l1 l2, R ∉ l1 ∧ t.stored = l1 ++ R :: l2 ∧ RTree.stored ⟨root1⟩ = l1 ++ l2 := by
  obtain ⟨rects, rfl, _⟩ := reachable_shape ht
  rw [stored_leaf] at hR
  refine ⟨.mk true (rects.erase R) [], ?_, ?_, ?_, ?_⟩
  · simp [remove_leaf, hR]
  · simp [RTree.remove, remove_leaf, hR]
  · rw [stored_leaf, stored_leaf, List.count_erase_self]
    have : 0 < rects.count R := List.count_pos_iff.mpr hR
    omega
  · obtain ⟨l1, l2, h1, h2, h3⟩ := List.exists_erase_eq hR
    exact ⟨l1, l2, h1, by rw [stored_leaf]; exact h2, by rw [stored_leaf]; exact h3⟩

/-- C3 witness: removing (2,2,3,3) from the demo index. -/
theorem c3_remove_stored_witness :
    Reachable demoTree ∧ (⟨2, 2, 3, 3⟩ : Rectangle) ∈ demoTree.stored ∧
      ∃ root1, remove demoTree.root ⟨2, 2, 3, 3⟩ = some (true, root1) ∧
        demoTree.remove ⟨2, 2, 3, 3⟩ = some ⟨root1⟩ ∧
        (RTree.stored ⟨root1⟩).count ⟨2, 2, 3, 3⟩ + 1 = demoTree.stored.count ⟨2, 2, 3, 3⟩ ∧
        ∃ l1 l2, (⟨2, 2, 3, 3⟩ : Rectangle) ∉ l1 ∧ demoTree.stored = l1 ++ ⟨2, 2, 3, 3⟩ :: l2 ∧
          RTree.stored ⟨root1⟩ = l1 ++ l2 :=
  ⟨reachable_demoTree, by decide,
    c3_remove_stored demoTree reachable_demoTree ⟨2, 2, 3, 3⟩ (by decide)⟩

/-- C4: in a reachable index, `remove` of a rectangle that is not stored
returns false and leaves the root node, hence the whole index, as it was. -/
theorem c4_remove_absent (t : RTree) (ht : Reachable t) (R : Rectangle)
    (hR : R ∉ t.stored) :
    remove t.root R = some (false, t.root) ∧ t.remove R = some t := by
  obtain ⟨rects, rfl, _⟩ := reachable_shape ht
  rw [stored_leaf] at hR
  simp [RTree.remove, remove_leaf, hR]

/-- C4 witness: removing (7,7,8,8) from the demo index. -/
theorem c4_remove_absent_witness :
    Reachable demoTree ∧ (⟨7, 7, 8, 8⟩ : Rectangle) ∉ demoTree.stored ∧
      remove demoTree.root ⟨7, 7, 8, 8⟩ = some (false, demoTree.root) ∧
      demoTree.remove ⟨7, 7, 8, 8⟩ = some demoTree :=
  ⟨reachable_demoTree, by decide,
    c4_remove_absent demoTree reachable_demoTree ⟨7, 7, 8, 8⟩ (by decide)⟩

/-- C5 (code defect, evaluated): (0,0,6,1) is not stored in the reachable index
holding five rectangles of areas 1 to 5; after `insert` of it, `remove` of the
same rectangle returns false. -/
theorem c5_remove_after_insert_fails :
    Reachable fullTree ∧ (⟨0, 0, 6, 1⟩ : Rectangle) ∉ fullTree.stored ∧
    fullTree.insert ⟨0, 0, 6, 1⟩
      = some ⟨.mk true [⟨0, 0, 1, 1⟩, ⟨0, 0, 2, 1⟩, ⟨0, 0, 3, 1⟩] []⟩ ∧
    remove (.mk true [⟨0, 0, 1, 1⟩, ⟨0, 0, 2, 1⟩, ⟨0, 0, 3, 1⟩] []) ⟨0, 0, 6, 1⟩
      = some (false, .mk true [⟨0, 0, 1, 1⟩, ⟨0, 0, 2, 1⟩, ⟨0, 0, 3, 1⟩] []) :=
  ⟨reachable_fullTree, by decide, rfl, rfl⟩

/-- C6 (as stated, refuted): the rectangle (-2147483648, 0, 50000, 1) has
x1 <= x2 and y1 <= y2, yet after inserting it into the empty index
`nearestNeighbor` on it does not return it: `x1 - x2` and then `dx * dx`
overflow, the distance to itself is NaN and the unassigned local is returned. -/
theorem c6_overflow_counterexample :
    ((-2147483648 : Int) ≤ 50000 ∧ (0 : Int) ≤ 1) ∧
    RTree.new.insert ⟨-2147483648, 0, 50000, 1⟩
      = some ⟨.mk true [⟨-2147483648, 0, 50000, 1⟩] []⟩ ∧
    distance ⟨-2147483648, 0, 50000, 1⟩ ⟨-2147483648, 0, 50000, 1⟩ = Dist.nan ∧
    RTree.nearestNeighbor ⟨.mk true [⟨-2147483648, 0, 50000, 1⟩] []⟩
      ⟨-2147483648, 0, 50000, 1⟩ = none :=
  ⟨by decide, rfl, by decide, by decide⟩

/-- C6 (amended): for every rectangle `R` whose distance to itself is numeric,
inserting `R` into the empty index and asking for the nearest neighbour of `R`
returns `R`; and for every `R` with x1 <= x2, y1 <= y2 and non-overflowing
coordinate differences the distance of `R` to itself is numeric and equal to 0. -/
theorem c6_insert_then_find (R : Rectangle) :
    (distance R R ≠ Dist.nan →
      ∃ t, RTree.new.insert R = some t ∧ t.nearestNeighbor R = some R) ∧
    (R.x1 ≤ R.x2 → R.y1 ≤ R.y2 → inInt32 (R.x1 - R.x2) → inInt32 (R.y1 - R.y2) →
      distance R R = Dist.sqrt 0) := by
  constructor
  · intro hnum
    refine ⟨⟨.mk true [R] []⟩, rfl, ?_⟩
    obtain ⟨n, hn⟩ : ∃ n, distance R R = Dist.sqrt n := by
      rcases distance_nan_or_sqrt R R with h | h
      · exact absurd h hnum
      · exact h
    simp [RTree.nearestNeighbor, nearestNeighbor_leaf, nearestLoop, hn, Dist.lt]
  · intro hx hy hdx hdy
    have h1 : max (R.x1 - R.x2) 0 = 0 := max_eq_right (by omega)
    have h2 : max (R.y1 - R.y2) 0 = 0 := max_eq_right (by omega)
    unfold distance
    rw [wrap32_of_inInt32 hdx, wrap32_of_inInt32 hdy, h1, h2]
    decide

/-- C6 witness: the rectangle (0,0,1,1). -/
theorem c6_insert_then_find_witness :
    distance ⟨0, 0, 1, 1⟩ ⟨0, 0, 1, 1⟩ ≠ Dist.nan ∧
    (∃ t, RTree.new.insert ⟨0, 0, 1, 1⟩ = some t ∧
      t.nearestNeighbor ⟨0, 0, 1, 1⟩ = some ⟨0, 0, 1, 1⟩) ∧
    distance ⟨0, 0, 1, 1⟩ ⟨0, 0, 1, 1⟩ = Dist.sqrt 0 :=
  ⟨by decide, (c6_insert_then_find ⟨0, 0, 1, 1⟩).1 (by decide),
    (c6_insert_then_find ⟨0, 0, 1, 1⟩).2 (by decide) (by decide) (by decide) (by decide)⟩

theorem subnode_of_no_children {n m : Node} (h : Subnode n m) (hm : m.children = []) :
    n = m := by
  cases h with
  | refl => rfl
  | child hc _ => rw [hm] at hc; cases hc

/-- C7: in a reachable index every node reachable from the root holds at most
five rectangles and at most five children. -/
theorem c7_capacity (t : RTree) (ht : Reachable t) (n : Node) (hn : Subnode n t.root) :
    n.rects.length ≤ 5 ∧ n.children.length ≤ 5 := by
  obtain ⟨rects, rfl, hlen⟩ := reachable_shape ht
  have h := subnode_of_no_children hn rfl
  subst h
  exact ⟨hlen, by simp [Node.children]⟩

/-- C7 witness: the root of the index holding five rectangles. -/
theorem c7_capacity_witness :
    Reachable fullTree ∧ Subnode fullTree.root fullTree.root ∧
      fullTree.root.rects.length ≤ 5 ∧ fullTree.root.children.length ≤ 5 :=
  ⟨reachable_fullTree, Subnode.refl _,
    c7_capacity fullTree reachable_fullTree fullTree.root (Subnode.refl _)⟩

/-- C8: inserting six pairwise distinct rectangles one after another into the
empty index allocates no sibling during the first five calls and exactly one
during the sixth, that is `split` runs once, on the sixth call; afterwards the
node and the sibling hold three rectangles each, neither more than five, six
together, and between them exactly the six inserted rectangles. -/
theorem c8_six_inserts_split_once (rs : List Rectangle) (hlen : rs.length = 6)
    (hnd : rs.Nodup) :
    ∃ node sib, insertAll RTree.new.root rs = some (node, [[], [], [], [], [], [sib]]) ∧
      node.rects.length = 3 ∧ sib.rects.length = 3 ∧
      node.rects.length ≤ 5 ∧ sib.rects.length ≤ 5 ∧
      node.rects.length + sib.rects.length = 6 ∧
      (node.rects ++ sib.rects).Perm rs := by
  match rs, hlen, hnd with
  | [a, b, c, d, e, f], _, _ =>
    refine ⟨.mk true ((sortRects [a, b, c, d, e, f]).take 3) [],
      .mk false ((sortRects [a, b, c, d, e, f]).drop 3) [], ?_, ?_, ?_, ?_, ?_, ?_, ?_⟩
    · simp [insertAll, RTree.new, insert_leaf]
    · simp [Node.rects, sortRects_length]
    · simp [Node.rects, sortRects_length]
    · simp [Node.rects, sortRects_length]
    · simp [Node.rects, sortRects_length]
    · simp [Node.rects, sortRects_length]
    · simp only [Node.rects, List.take_append_drop]
      exact sortRects_perm _

/-- C8 witness: six rectangles of areas 1 to 6. -/
theorem c8_six_inserts_split_once_witness :
    ([⟨0, 0, 1, 1⟩, ⟨0, 0, 2, 1⟩, ⟨0, 0, 3, 1⟩, ⟨0, 0, 4, 1⟩, ⟨0, 0, 5, 1⟩, ⟨0, 0, 6, 1⟩] :
      List Rectangle).length = 6 ∧
    ([⟨0, 0, 1, 1⟩, ⟨0, 0, 2, 1⟩, ⟨0, 0, 3, 1⟩, ⟨0, 0, 4, 1⟩, ⟨0, 0, 5, 1⟩, ⟨0, 0, 6, 1⟩] :
      List Rectangle).Nodup ∧
    ∃ node sib,
      insertAll RTree.new.root
          [⟨0, 0, 1, 1⟩, ⟨0, 0, 2, 1⟩, ⟨0, 0, 3, 1⟩, ⟨0, 0, 4, 1⟩, ⟨0, 0, 5, 1⟩, ⟨0, 0, 6, 1⟩]
        = some (node, [[], [], [], [], [], [sib]]) ∧
      node.rects.length = 3 ∧ sib.rects.length = 3 ∧
      node.rects.length ≤ 5 ∧ sib.rects.length ≤ 5 ∧
      node.rects.length + sib.rects.length = 6 ∧
      (node.rects ++ sib.rects).Perm
        [⟨0, 0, 1, 1⟩, ⟨0, 0, 2, 1⟩, ⟨0, 0, 3, 1⟩, ⟨0, 0, 4, 1⟩, ⟨0, 0, 5, 1⟩, ⟨0, 0, 6, 1⟩] :=
  ⟨by decide, by decide, c8_six_inserts_split_once _ (by decide) (by decide)⟩

/-- C9: the demo driver's run. Three inserts into the empty index give the
demo index; `nearestNeighbor((1,1,2,2))` returns (0,0,1,1) or (2,2,3,3) (it is
the former); `remove(root, (0,0,1,1))` returns true; then
`nearestNeighbor((0,0,1,1))` returns (2,2,3,3), whose distance to the query is
the square root of 2. -/
theorem c9_demo_run :
    RTree.new.insert ⟨0, 0, 1, 1⟩ = some ⟨.mk true [⟨0, 0, 1, 1⟩] []⟩ ∧
    RTree.insert ⟨.mk true [⟨0, 0, 1, 1⟩] []⟩ ⟨2, 2, 3, 3⟩
      = some ⟨.mk true [⟨0, 0, 1, 1⟩, ⟨2, 2, 3, 3⟩] []⟩ ∧
    RTree.insert ⟨.mk true [⟨0, 0, 1, 1⟩, ⟨2, 2, 3, 3⟩] []⟩ ⟨4, 4, 5, 5⟩ = some demoTree ∧
    (demoTree.nearestNeighbor ⟨1, 1, 2, 2⟩ = some ⟨0, 0, 1, 1⟩ ∨
      demoTree.nearestNeighbor ⟨1, 1, 2, 2⟩ = some ⟨2, 2, 3, 3⟩) ∧
    demoTree.nearestNeighbor ⟨1, 1, 2, 2⟩ = some ⟨0, 0, 1, 1⟩ ∧
    remove demoTree.root ⟨0, 0, 1, 1⟩
      = some (true, .mk true [⟨2, 2, 3, 3⟩, ⟨4, 4, 5, 5⟩] []) ∧
    demoTree.remove ⟨0, 0, 1, 1⟩ = some ⟨.mk true [⟨2, 2, 3, 3⟩, ⟨4, 4, 5, 5⟩] []⟩ ∧
    RTree.nearestNeighbor ⟨.mk true [⟨2, 2, 3, 3⟩, ⟨4, 4, 5, 5⟩] []⟩ ⟨0, 0, 1, 1⟩
      = some ⟨2, 2, 3, 3⟩ ∧
    distance ⟨2, 2, 3, 3⟩ ⟨0, 0, 1, 1⟩ = Dist.sqrt 2 :=
  ⟨rfl, rfl, rfl, Or.inl (by decide), by decide, rfl, rfl, by decide, by decide⟩

/-- C10 (as stated, refuted): `split` on the internal node that holds the two
rectangles (0,0,1,1), (0,0,2,2) and no children does not produce a retained
half and a sibling: `children.begin() + 1` is past the end of `children`. -/
theorem c10_internal_counterexample :
    ¬ ∃ kept sib, split (.mk false [⟨0, 0, 1, 1⟩, ⟨0, 0, 2, 2⟩] []) = some (kept, sib) := by
  rintro ⟨kept, sib, h⟩
  have hnone : split (.mk false [⟨0, 0, 1, 1⟩, ⟨0, 0, 2, 2⟩] []) = none := rfl
  rw [hnone] at h
  cases h

/-- C10 (amended): for every leaf, and for every internal node that has at
least floor(n/2) children, `split` of the node holding `n` rectangles retains
the first floor(n/2) entries of the area-sorted list and moves the other
n - floor(n/2) to the sibling; the retained list followed by the sibling's list
is a permutation of the original entries in ascending order of area, and every
retained rectangle has area at most that of every moved one. -/
theorem c10_split_partition (node : Node)
    (h : node.leaf = true ∨ node.rects.length / 2 ≤ node.children.length) :
    ∃ kept sib, split node = some (kept, sib) ∧
      kept.rects = (sortRects node.rects).take (node.rects.length / 2) ∧
      sib.rects = (sortRects node.rects).drop (node.rects.length / 2) ∧
      kept.rects.length = node.rects.length / 2 ∧
      sib.rects.length = node.rects.length - node.rects.length / 2 ∧
      (kept.rects ++ sib.rects).Perm node.rects ∧
      (kept.rects ++ sib.rects).Sorted (fun a b => area a ≤ area b) ∧
      ∀ a ∈ kept.rects, ∀ b ∈ sib.rects, area a ≤ area b := by
  have hsorted : (sortRects node.rects).Sorted (fun a b => area a ≤ area b) :=
    (sortRects_sorted node.rects).imp (fun hab => (areaLE_iff _ _).mp hab)
  have key : ∀ kept sib : Node,
      kept.rects = (sortRects node.rects).take (node.rects.length / 2) →
      sib.rects = (sortRects node.rects).drop (node.rects.length / 2) →
      kept.rects.length = node.rects.length / 2 ∧
      sib.rects.length = node.rects.length - node.rects.length / 2 ∧
      (kept.rects ++ sib.rects).Perm node.rects ∧
      (kept.rects ++ sib.rects).Sorted (fun a b => area a ≤ area b) ∧
      ∀ a ∈ kept.rects, ∀ b ∈ sib.rects, area a ≤ area b := by
    intro kept sib hk hs
    rw [hk, hs]
    refine ⟨?_, ?_, ?_, ?_, ?_⟩
    · rw [List.length_take, sortRects_length]; omega
    · rw [List.length_drop, sortRects_length]
    · rw [List.take_append_drop]; exact sortRects_perm _
    · rw [List.take_append_drop]; exact hsorted
    · intro a ha b hb
      exact hsorted.rel_of_mem_take_of_mem_drop ha hb
  by_cases hleaf : node.leaf = true
  · refine ⟨.mk true ((sortRects node.rects).take (node.rects.length / 2)) node.children,
      .mk false ((sortRects node.rects).drop (node.rects.length / 2)) [], ?_, rfl, rfl,
      key _ _ rfl rfl⟩
    simp [split, hleaf, sortRects_length]
  · have hch : node.rects.length / 2 ≤ node.children.length := by
      rcases h with h | h
      · exact absurd h hleaf
      · exact h
    refine ⟨.mk false ((sortRects node.rects).take (node.rects.length / 2))
        (node.children.take (node.rects.length / 2)),
      .mk false ((sortRects node.rects).drop (node.rects.length / 2))
        (node.children.drop (node.rects.length / 2)), ?_, rfl, rfl, key _ _ rfl rfl⟩
    simp [split, hleaf, sortRects_length, hch]

/-- C10 witness: a leaf holding six rectangles. -/
theorem c10_split_partition_witness :
    (sixLeaf.leaf = true ∨ sixLeaf.rects.length / 2 ≤ sixLeaf.children.length) ∧
    ∃ kept sib, split sixLeaf = some (kept, sib) ∧
      kept.rects = (sortRects sixLeaf.rects).take (sixLeaf.rects.length / 2) ∧
      sib.rects = (sortRects sixLeaf.rects).drop (sixLeaf.rects.length / 2) ∧
      kept.rects.length = sixLeaf.rects.length / 2 ∧
      sib.rects.length = sixLeaf.rects.length - sixLeaf.rects.length / 2 ∧
      (kept.rects ++ sib.rects).Perm sixLeaf.rects ∧
      (kept.rects ++ sib.rects).Sorted (fun a b => area a ≤ area b) ∧
      ∀ a ∈ kept.rects, ∀ b ∈ sib.rects, area a ≤ area b :=
  ⟨Or.inl rfl, c10_split_partition sixLeaf (Or.inl rfl)⟩

/-- Whatever the scan of a leaf returns was the current best or is an entry. -/
theorem nearestLoop_mem (q : Rectangle) :
    ∀ (l : List Rectangle) (m : Dist) (acc : Option Rectangle) (r : Rectangle),
      nearestLoop q l m acc = some r → acc = some r ∨ r ∈ l := by
  intro l
  induction l with
  | nil =>
    intro m acc r h
    exact Or.inl h
  | cons a rest ih =>
    intro m acc r h
    simp only [nearestLoop] at h
    by_cases hlt : Dist.lt (distance a q) m = true
    · simp only [hlt, if_true] at h
      rcases ih _ _ _ h with h1 | h1
      · simp only [Option.some.injEq] at h1
        exact Or.inr (by simp [h1])
      · exact Or.inr (by simp [h1])
    · simp only [hlt] at h
      rcases ih _ _ _ h with h1 | h1
      · exact Or.inl h1
      · exact Or.inr (by simp [h1])

/-- C11: in a reachable index holding exactly five rectangles, `insert` runs
`split` once; the root stays a leaf without children and keeps exactly three
rectangles, the lower half by area of the six candidates, while the sibling
takes the other three and is not reachable from the root. A rectangle of the
sibling that equals no retained one is not found by `remove` (false, index
unchanged) and is never the result of `nearestNeighbor`. -/
theorem c11_split_sibling_orphaned (t : RTree) (ht : Reachable t)
    (h5 : t.stored.length = 5) (rect : Rectangle) :
    ∃ kept sib, insert t.root rect = some (.mk true kept [], [sib]) ∧
      t.insert rect = some ⟨.mk true kept []⟩ ∧
      RTree.stored ⟨.mk true kept []⟩ = kept ∧
      kept.length = 3 ∧ sib.rects.length = 3 ∧
      (kept ++ sib.rects).Perm (t.stored ++ [rect]) ∧
      (∀ a ∈ kept, ∀ b ∈ sib.rects, area a ≤ area b) ∧
      ¬ Subnode sib (.mk true kept []) ∧
      ∀ m ∈ sib.rects, m ∉ kept →
        remove (.mk true kept []) m = some (false, .mk true kept []) ∧
        ∀ q, nearestNeighbor (.mk true kept []) q ≠ some m := by
  obtain ⟨rects, rfl, _⟩ := reachable_shape ht
  rw [stored_leaf] at h5 ⊢
  have hbig : 5 < (rects ++ [rect]).length := by
    simp only [List.length_append, List.length_singleton]
    omega
  have hhalf : (rects ++ [rect]).length / 2 = 3 := by
    simp only [List.length_append, List.length_singleton]
    omega
  have hlen6 : (sortRects (rects ++ [rect])).length = 6 := by
    rw [sortRects_length]
    simp only [List.length_append, List.length_singleton]
    omega
  have hins : insert (.mk true rects []) rect
      = some (.mk true ((sortRects (rects ++ [rect])).take 3) [],
          [.mk false ((sortRects (rects ++ [rect])).drop 3) []]) := by
    rw [insert_leaf, if_pos hbig, hhalf]
  refine ⟨(sortRects (rects ++ [rect])).take 3,
    .mk false ((sortRects (rects ++ [rect])).drop 3) [], hins, ?_, stored_leaf _ _, ?_, ?_,
    ?_, ?_, ?_, ?_⟩
  · simp only [RTree.insert, hins]
  · rw [List.length_take, hlen6]
    rfl
  · simp only [Node.rects, List.length_drop, hlen6]
  · simp only [Node.rects, List.take_append_drop]
    exact sortRects_perm _
  · intro a ha b hb
    exact (areaLE_iff a b).mp ((sortRects_sorted _).rel_of_mem_take_of_mem_drop ha hb)
  · intro hsub
    have := subnode_of_no_children hsub rfl
    cases this
  · intro m _ hm
    refine ⟨by simp [remove_leaf, hm], ?_⟩
    intro q hq
    rw [nearestNeighbor_leaf] at hq
    rcases nearestLoop_mem q _ _ _ _ hq with h | h
    · cases h
    · exact hm h

/-- C11 witness: the index holding five rectangles of areas 1 to 5 and the
rectangle (0,0,6,1). -/
theorem c11_split_sibling_orphaned_witness :
    Reachable fullTree ∧ fullTree.stored.length = 5 ∧
    ∃ kept sib, insert fullTree.root ⟨0, 0, 6, 1⟩ = some (.mk true kept [], [sib]) ∧
      fullTree.insert ⟨0, 0, 6, 1⟩ = some ⟨.mk true kept []⟩ ∧
      RTree.stored ⟨.mk true kept []⟩ = kept ∧
      kept.length = 3 ∧ sib.rects.length = 3 ∧
      (kept ++ sib.rects).Perm (fullTree.stored ++ [⟨0, 0, 6, 1⟩]) ∧
      (∀ a ∈ kept, ∀ b ∈ sib.rects, area a ≤ area b) ∧
      ¬ Subnode sib (.mk true kept []) ∧
      ∀ m ∈ sib.rects, m ∉ kept →
        remove (.mk true kept []) m = some (false, .mk true kept []) ∧
        ∀ q, nearestNeighbor (.mk true kept []) q ≠ some m :=
  ⟨reachable_fullTree, by decide,
    c11_split_sibling_orphaned fullTree reachable_fullTree (by decide) ⟨0, 0, 6, 1⟩⟩

theorem overlap_iff (a b : Rectangle) :
    overlap a b = true ↔ a.x1 ≤ b.x2 ∧ b.x1 ≤ a.x2 ∧ a.y1 ≤ b.y2 ∧ b.y1 ≤ a.y2 := by
  simp only [overlap, gt_iff_lt, Bool.not_eq_true', Bool.or_eq_false_iff,
    decide_eq_false_iff_not, not_lt]
  constructor
  · rintro ⟨⟨⟨h1, h2⟩, h3⟩, h4⟩
    exact ⟨h1, h2, h3, h4⟩
  · rintro ⟨h1, h2, h3, h4⟩
    exact ⟨⟨⟨h1, h2⟩, h3⟩, h4⟩

/-- C12: for well-formed rectangles `overlap` holds exactly when the two closed
boxes have a common point, with real coordinates and equally with integer
coordinates; touching boxes have such a point and so overlap. -/
theorem c12_overlap_iff_common_point (a b : Rectangle)
    (ha : a.x1 ≤ a.x2 ∧ a.y1 ≤ a.y2) (hb : b.x1 ≤ b.x2 ∧ b.y1 ≤ b.y2) :
    (overlap a b = true ↔
      ∃ x y : ℝ, (a.x1 : ℝ) ≤ x ∧ x ≤ a.x2 ∧ (a.y1 : ℝ) ≤ y ∧ y ≤ a.y2 ∧
        (b.x1 : ℝ) ≤ x ∧ x ≤ b.x2 ∧ (b.y1 : ℝ) ≤ y ∧ y ≤ b.y2) ∧
    (overlap a b = true ↔
      ∃ x y : Int, a.x1 ≤ x ∧ x ≤ a.x2 ∧ a.y1 ≤ y ∧ y ≤ a.y2 ∧
        b.x1 ≤ x ∧ x ≤ b.x2 ∧ b.y1 ≤ y ∧ y ≤ b.y2) := by
  obtain ⟨hax, hay⟩ := ha
  obtain ⟨hbx, hby⟩ := hb
  have hint : overlap a b = true →
      ∃ x y : Int, a.x1 ≤ x ∧ x ≤ a.x2 ∧ a.y1 ≤ y ∧ y ≤ a.y2 ∧
        b.x1 ≤ x ∧ x ≤ b.x2 ∧ b.y1 ≤ y ∧ y ≤ b.y2 := by
    intro h
    obtain ⟨h1, h2, h3, h4⟩ := (overlap_iff a b).mp h
    refine ⟨max a.x1 b.x1, max a.y1 b.y1, ?_, ?_, ?_, ?_, ?_, ?_, ?_, ?_⟩ <;> omega
  constructor
  · constructor
    · intro h
      obtain ⟨x, y, h1, h2, h3, h4, h5, h6, h7, h8⟩ := hint h
      exact ⟨x, y, by exact_mod_cast h1, by exact_mod_cast h2, by exact_mod_cast h3,
        by exact_mod_cast h4, by exact_mod_cast h5, by exact_mod_cast h6,
        by exact_mod_cast h7, by exact_mod_cast h8⟩
    · rintro ⟨x, y, h1, h2, h3, h4, h5, h6, h7, h8⟩
      rw [overlap_iff]
      refine ⟨?_, ?_, ?_, ?_⟩
      · exact_mod_cast le_trans h1 h6
      · exact_mod_cast le_trans h5 h2
      · exact_mod_cast le_trans h3 h8
      · exact_mod_cast le_trans h7 h4
  · constructor
    · exact hint
    · rintro ⟨x, y, h1, h2, h3, h4, h5, h6, h7, h8⟩
      rw [overlap_iff]
      omega

/-- C12 witness: (0,0,1,1) and (1,1,2,2) touch in the corner (1,1). -/
theorem c12_overlap_iff_common_point_witness :
    (((0 : Int) ≤ 1 ∧ (0 : Int) ≤ 1) ∧ ((1 : Int) ≤ 2 ∧ (1 : Int) ≤ 2)) ∧
    overlap ⟨0, 0, 1, 1⟩ ⟨1, 1, 2, 2⟩ = true ∧
    ∃ x y : Int, (0 : Int) ≤ x ∧ x ≤ 1 ∧ (0 : Int) ≤ y ∧ y ≤ 1 ∧
      (1 : Int) ≤ x ∧ x ≤ 2 ∧ (1 : Int) ≤ y ∧ y ≤ 2 :=
  ⟨by decide, by decide,
    (c12_overlap_iff_common_point ⟨0, 0, 1, 1⟩ ⟨1, 1, 2, 2⟩ (by decide) (by decide)).2.mp
      (by decide)⟩

/-- Along one axis the gap of `distance` bounds the separation of any two
points of the intervals. -/
theorem gap_sq_le (a1 a2 b1 b2 : Int) (p q : ℝ) (hp1 : (a1 : ℝ) ≤ p) (hp2 : p ≤ a2)
    (hq1 : (b1 : ℝ) ≤ q) (hq2 : q ≤ b2) :
    ((max (max (a1 - b2) 0) (max (b1 - a2) 0) : Int) : ℝ) ^ 2 ≤ (p - q) ^ 2 := by
  have h0 : (0 : ℝ) ≤ ((max (max (a1 - b2) 0) (max (b1 - a2) 0) : Int) : ℝ) := by
    have : (0 : Int) ≤ max (max (a1 - b2) 0) (max (b1 - a2) 0) := by omega
    exact_mod_cast this
  have h1 : ((max (max (a1 - b2) 0) (max (b1 - a2) 0) : Int) : ℝ) ≤ |p - q| := by
    push_cast
    refine max_le (max_le ?_ (abs_nonneg _)) (max_le ?_ (abs_nonneg _))
    · exact le_trans (by linarith) (le_abs_self (p - q))
    · exact le_trans (by linarith) (neg_le_abs (p - q))
  calc ((max (max (a1 - b2) 0) (max (b1 - a2) 0) : Int) : ℝ) ^ 2
      ≤ |p - q| ^ 2 := pow_le_pow_left₀ h0 h1 2
    _ = (p - q) ^ 2 := sq_abs _

/-- Along one axis two points of non-empty intervals realise the gap. -/
theorem gap_attained (a1 a2 b1 b2 : Int) (ha : a1 ≤ a2) (hb : b1 ≤ b2) :
    ∃ p q : Int, a1 ≤ p ∧ p ≤ a2 ∧ b1 ≤ q ∧ q ≤ b2 ∧
      (p - q) ^ 2 = max (max (a1 - b2) 0) (max (b1 - a2) 0) ^ 2 := by
  by_cases h1 : 0 < a1 - b2
  · refine ⟨a1, b2, le_refl _, ha, hb, le_refl _, ?_⟩
    have : max (max (a1 - b2) 0) (max (b1 - a2) 0) = a1 - b2 := by omega
    rw [this]
  · by_cases h2 : 0 < b1 - a2
    · refine ⟨a2, b1, ha, le_refl _, le_refl _, hb, ?_⟩
      have : max (max (a1 - b2) 0) (max (b1 - a2) 0) = b1 - a2 := by omega
      rw [this]
      ring
    · refine ⟨max a1 b1, max a1 b1, by omega, by omega, by omega, by omega, ?_⟩
      have : max (max (a1 - b2) 0) (max (b1 - a2) 0) = 0 := by omega
      rw [this]
      ring

/-- C13: for well-formed rectangles without overflow in `distance`, the
radicand `dx * dx + dy * dy` of the returned square root is the least squared
Euclidean distance between a point of the first box and a point of the second:
no pair of points is closer and some pair is exactly that far apart. -/
theorem c13_distance_is_minimum (a b : Rectangle)
    (ha : a.x1 ≤ a.x2 ∧ a.y1 ≤ a.y2) (hb : b.x1 ≤ b.x2 ∧ b.y1 ≤ b.y2)
    (hex : distanceExact a b) :
    ∃ n : Nat, distance a b = Dist.sqrt n ∧
      (∀ px py qx qy : ℝ, (a.x1 : ℝ) ≤ px → px ≤ a.x2 → (a.y1 : ℝ) ≤ py → py ≤ a.y2 →
        (b.x1 : ℝ) ≤ qx → qx ≤ b.x2 → (b.y1 : ℝ) ≤ qy → qy ≤ b.y2 →
        (n : ℝ) ≤ (px - qx) ^ 2 + (py - qy) ^ 2) ∧
      ∃ px py qx qy : ℝ, (a.x1 : ℝ) ≤ px ∧ px ≤ a.x2 ∧ (a.y1 : ℝ) ≤ py ∧ py ≤ a.y2 ∧
        (b.x1 : ℝ) ≤ qx ∧ qx ≤ b.x2 ∧ (b.y1 : ℝ) ≤ qy ∧ qy ≤ b.y2 ∧
        (px - qx) ^ 2 + (py - qy) ^ 2 = n := by
  obtain ⟨hax, hay⟩ := ha
  obtain ⟨hbx, hby⟩ := hb
  have hnn : (0 : Int) ≤ max (max (a.x1 - b.x2) 0) (max (b.x1 - a.x2) 0) ^ 2
      + max (max (a.y1 - b.y2) 0) (max (b.y1 - a.y2) 0) ^ 2 := by positivity
  have hcast : (((max (max (a.x1 - b.x2) 0) (max (b.x1 - a.x2) 0) ^ 2
      + max (max (a.y1 - b.y2) 0) (max (b.y1 - a.y2) 0) ^ 2).toNat : Nat) : ℝ)
      = ((max (max (a.x1 - b.x2) 0) (max (b.x1 - a.x2) 0) : Int) : ℝ) ^ 2
        + ((max (max (a.y1 - b.y2) 0) (max (b.y1 - a.y2) 0) : Int) : ℝ) ^ 2 := by
    have h := Int.toNat_of_nonneg hnn
    have h2 : (((max (max (a.x1 - b.x2) 0) (max (b.x1 - a.x2) 0) ^ 2
        + max (max (a.y1 - b.y2) 0) (max (b.y1 - a.y2) 0) ^ 2).toNat : Int) : ℝ)
        = ((max (max (a.x1 - b.x2) 0) (max (b.x1 - a.x2) 0) ^ 2
          + max (max (a.y1 - b.y2) 0) (max (b.y1 - a.y2) 0) ^ 2 : Int) : ℝ) := by
      rw [h]
    rw [Int.cast_natCast] at h2
    rw [h2]
    push_cast
    ring
  refine ⟨_, distance_of_exact hex, ?_, ?_⟩
  · intro px py qx qy h1 h2 h3 h4 h5 h6 h7 h8
    rw [hcast]
    exact add_le_add (gap_sq_le a.x1 a.x2 b.x1 b.x2 px qx h1 h2 h5 h6)
      (gap_sq_le a.y1 a.y2 b.y1 b.y2 py qy h3 h4 h7 h8)
  · obtain ⟨p, q, hp1, hp2, hq1, hq2, hpq⟩ := gap_attained a.x1 a.x2 b.x1 b.x2 hax hbx
    obtain ⟨u, v, hu1, hu2, hv1, hv2, huv⟩ := gap_attained a.y1 a.y2 b.y1 b.y2 hay hby
    refine ⟨p, u, q, v, by exact_mod_cast hp1, by exact_mod_cast hp2, by exact_mod_cast hu1,
      by exact_mod_cast hu2, by exact_mod_cast hq1, by exact_mod_cast hq2,
      by exact_mod_cast hv1, by exact_mod_cast hv2, ?_⟩
    rw [hcast]
    have e1 : ((p : ℝ) - q) ^ 2
        = ((max (max (a.x1 - b.x2) 0) (max (b.x1 - a.x2) 0) : Int) : ℝ) ^ 2 := by
      exact_mod_cast hpq
    have e2 : ((u : ℝ) - v) ^ 2
        = ((max (max (a.y1 - b.y2) 0) (max (b.y1 - a.y2) 0) : Int) : ℝ) ^ 2 := by
      exact_mod_cast huv
    rw [e1, e2]

/-- C13 witness: the boxes (0,0,1,1) and (2,2,3,3), at squared distance 2. -/
theorem c13_distance_is_minimum_witness :
    (((0 : Int) ≤ 1 ∧ (0 : Int) ≤ 1) ∧ ((2 : Int) ≤ 3 ∧ (2 : Int) ≤ 3)) ∧
    distanceExact ⟨0, 0, 1, 1⟩ ⟨2, 2, 3, 3⟩ ∧
    ∃ n : Nat, distance ⟨0, 0, 1, 1⟩ ⟨2, 2, 3, 3⟩ = Dist.sqrt n ∧
      (∀ px py qx qy : ℝ, ((0 : Int) : ℝ) ≤ px → px ≤ ((1 : Int) : ℝ) →
        ((0 : Int) : ℝ) ≤ py → py ≤ ((1 : Int) : ℝ) →
        ((2 : Int) : ℝ) ≤ qx → qx ≤ ((3 : Int) : ℝ) →
        ((2 : Int) : ℝ) ≤ qy → qy ≤ ((3 : Int) : ℝ) →
        (n : ℝ) ≤ (px - qx) ^ 2 + (py - qy) ^ 2) ∧
      ∃ px py qx qy : ℝ, ((0 : Int) : ℝ) ≤ px ∧ px ≤ ((1 : Int) : ℝ) ∧
        ((0 : Int) : ℝ) ≤ py ∧ py ≤ ((1 : Int) : ℝ) ∧
        ((2 : Int) : ℝ) ≤ qx ∧ qx ≤ ((3 : Int) : ℝ) ∧
        ((2 : Int) : ℝ) ≤ qy ∧ qy ≤ ((3 : Int) : ℝ) ∧
        (px - qx) ^ 2 + (py - qy) ^ 2 = n :=
  ⟨by decide, by decide,
    c13_distance_is_minimum ⟨0, 0, 1, 1⟩ ⟨2, 2, 3, 3⟩ (by decide) (by decide) (by decide)⟩

/-- C14: for well-formed rectangles without overflow in `distance`, the
distance is 0 exactly when `overlap` holds, and when `overlap` fails the
distance is the square root of a positive integer. -/
theorem c14_distance_zero_iff_overlap (a b : Rectangle)
    (_ha : a.x1 ≤ a.x2 ∧ a.y1 ≤ a.y2) (_hb : b.x1 ≤ b.x2 ∧ b.y1 ≤ b.y2)
    (hex : distanceExact a b) :
    (distance a b = Dist.sqrt 0 ↔ overlap a b = true) ∧
    (overlap a b = false → ∃ n : Nat, 0 < n ∧ distance a b = Dist.sqrt n) := by
  have hkey : (max (max (a.x1 - b.x2) 0) (max (b.x1 - a.x2) 0) ^ 2
      + max (max (a.y1 - b.y2) 0) (max (b.y1 - a.y2) 0) ^ 2).toNat = 0
      ↔ overlap a b = true := by
    rw [overlap_iff, Int.toNat_eq_zero]
    have hx : (0 : Int) ≤ max (max (a.x1 - b.x2) 0) (max (b.x1 - a.x2) 0) ^ 2 := by positivity
    have hy : (0 : Int) ≤ max (max (a.y1 - b.y2) 0) (max (b.y1 - a.y2) 0) ^ 2 := by positivity
    constructor
    · intro h
      have hx0 : max (max (a.x1 - b.x2) 0) (max (b.x1 - a.x2) 0) ^ 2 = 0 := by omega
      have hy0 : max (max (a.y1 - b.y2) 0) (max (b.y1 - a.y2) 0) ^ 2 = 0 := by omega
      have hx1 := pow_eq_zero_iff (two_ne_zero) |>.mp hx0
      have hy1 := pow_eq_zero_iff (two_ne_zero) |>.mp hy0
      omega
    · rintro ⟨h1, h2, h3, h4⟩
      have hx1 : max (max (a.x1 - b.x2) 0) (max (b.x1 - a.x2) 0) = 0 := by omega
      have hy1 : max (max (a.y1 - b.y2) 0) (max (b.y1 - a.y2) 0) = 0 := by omega
      rw [hx1, hy1]
      decide
  rw [distance_of_exact hex]
  constructor
  · rw [← hkey]
    constructor
    · intro h
      injection h
    · intro h
      rw [h]
  · intro hno
    refine ⟨_, ?_, rfl⟩
    rcases Nat.eq_zero_or_pos (max (max (a.x1 - b.x2) 0) (max (b.x1 - a.x2) 0) ^ 2
      + max (max (a.y1 - b.y2) 0) (max (b.y1 - a.y2) 0) ^ 2).toNat with h | h
    · rw [hkey.mp h] at hno
      cases hno
    · exact h

/-- C14 witness: the touching boxes (0,0,1,1) and (1,1,2,2). -/
theorem c14_distance_zero_iff_overlap_witness :
    (((0 : Int) ≤ 1 ∧ (0 : Int) ≤ 1) ∧ ((1 : Int) ≤ 2 ∧ (1 : Int) ≤ 2)) ∧
    distanceExact ⟨0, 0, 1, 1⟩ ⟨1, 1, 2, 2⟩ ∧
    (distance ⟨0, 0, 1, 1⟩ ⟨1, 1, 2, 2⟩ = Dist.sqrt 0 ↔
      overlap ⟨0, 0, 1, 1⟩ ⟨1, 1, 2, 2⟩ = true) ∧
    (overlap ⟨0, 0, 1, 1⟩ ⟨1, 1, 2, 2⟩ = false →
      ∃ n : Nat, 0 < n ∧ distance ⟨0, 0, 1, 1⟩ ⟨1, 1, 2, 2⟩ = Dist.sqrt n) :=
  ⟨by decide, by decide,
    c14_distance_zero_iff_overlap ⟨0, 0, 1, 1⟩ ⟨1, 1, 2, 2⟩ (by decide) (by decide) (by decide)⟩

theorem distance_sqrt_of_ne_nan {r q : Rectangle} (h : distance r q ≠ Dist.nan) :
    ∃ n, distance r q = Dist.sqrt n := by
  rcases distance_nan_or_sqrt r q with h1 | h1
  · exact absurd h1 h
  · exact h1

/-- The scan of a leaf started with a current best `b`: either `b` survives and
no entry is strictly nearer, or the result is the first entry among those of
least distance, and it is strictly nearer than `b`. -/
theorem nearestLoop_first_from (q : Rectangle) :
    ∀ (l : List Rectangle) (b : Rectangle), distance b q ≠ Dist.nan →
      (∀ s ∈ l, distance s q ≠ Dist.nan) →
      (nearestLoop q l (distance b q) (some b) = some b ∧
        ∀ s ∈ l, Dist.le (distance b q) (distance s q) = true) ∨
      ∃ pre r post, l = pre ++ r :: post ∧
        nearestLoop q l (distance b q) (some b) = some r ∧
        Dist.lt (distance r q) (distance b q) = true ∧
        (∀ s ∈ pre, Dist.lt (distance r q) (distance s q) = true) ∧
        ∀ s ∈ post, Dist.le (distance r q) (distance s q) = true := by
  intro l
  induction l with
  | nil =>
    intro b _ _
    exact Or.inl ⟨rfl, by simp⟩
  | cons a rest ih =>
    intro b hb hl
    have ha : distance a q ≠ Dist.nan := hl a (by simp)
    have hrest : ∀ s ∈ rest, distance s q ≠ Dist.nan := fun s hs => hl s (by simp [hs])
    obtain ⟨na, hna⟩ := distance_sqrt_of_ne_nan ha
    obtain ⟨nb, hnb⟩ := distance_sqrt_of_ne_nan hb
    by_cases hlt : Dist.lt (distance a q) (distance b q) = true
    · have hstep : nearestLoop q (a :: rest) (distance b q) (some b)
          = nearestLoop q rest (distance a q) (some a) := by
        simp only [nearestLoop, hlt, if_true]
      right
      rcases ih a ha hrest with ⟨hres, hall⟩ | ⟨pre, r, post, hsplit, hres, hra, hpre, hpost⟩
      · exact ⟨[], a, rest, rfl, by rw [hstep, hres], hlt, by simp, hall⟩
      · refine ⟨a :: pre, r, post, by rw [hsplit]; rfl, by rw [hstep, hres], ?_, ?_, hpost⟩
        · obtain ⟨nr, hnr⟩ : ∃ n, distance r q = Dist.sqrt n := by
            cases hd : distance r q with
            | nan => rw [hd] at hra; simp [Dist.lt] at hra
            | sqrt n => exact ⟨n, rfl⟩
            | dblMax => rw [hd] at hra; simp [Dist.lt] at hra
          rw [hna, hnb] at hlt
          rw [hnr, hna] at hra
          rw [hnr, hnb]
          simp only [Dist.lt, decide_eq_true_eq] at hlt hra ⊢
          omega
        · intro s hs
          rcases List.mem_cons.mp hs with h | h
          · rw [h]; exact hra
          · exact hpre s h
    · have hstep : nearestLoop q (a :: rest) (distance b q) (some b)
          = nearestLoop q rest (distance b q) (some b) := by
        simp only [nearestLoop, hlt]
        rfl
      have hba : Dist.le (distance b q) (distance a q) = true := by
        rw [hna, hnb] at hlt ⊢
        simp only [Dist.lt, Dist.le, decide_eq_true_eq] at hlt ⊢
        omega
      rcases ih b hb hrest with ⟨hres, hall⟩ | ⟨pre, r, post, hsplit, hres, hrb, hpre, hpost⟩
      · left
        refine ⟨by rw [hstep, hres], ?_⟩
        intro s hs
        rcases List.mem_cons.mp hs with h | h
        · rw [h]; exact hba
        · exact hall s h
      · right
        refine ⟨a :: pre, r, post, by rw [hsplit]; rfl, by rw [hstep, hres], hrb, ?_, hpost⟩
        intro s hs
        rcases List.mem_cons.mp hs with h | h
        · obtain ⟨nr, hnr⟩ : ∃ n, distance r q = Dist.sqrt n := by
            cases hd : distance r q with
            | nan => rw [hd] at hrb; simp [Dist.lt] at hrb
            | sqrt n => exact ⟨n, rfl⟩
            | dblMax => rw [hd] at hrb; simp [Dist.lt] at hrb
          rw [h, hnr, hna]
          rw [hnr, hnb] at hrb
          rw [hna, hnb] at hba
          simp only [Dist.lt, Dist.le, decide_eq_true_eq] at hrb hba ⊢
          omega
        · exact hpre s h

/-- The scan of a non-empty leaf with numeric distances returns the first of
the entries of least distance. -/
theorem nearestLoop_first (q : Rectangle) (l : List Rectangle) (hne : l ≠ [])
    (hl : ∀ s ∈ l, distance s q ≠ Dist.nan) :
    ∃ pre r post, l = pre ++ r :: post ∧ nearestLoop q l Dist.dblMax none = some r ∧
      (∀ s ∈ pre, Dist.lt (distance r q) (distance s q) = true) ∧
      ∀ s ∈ r :: post, Dist.le (distance r q) (distance s q) = true := by
  cases l with
  | nil => exact absurd rfl hne
  | cons a rest =>
    have ha : distance a q ≠ Dist.nan := hl a (by simp)
    obtain ⟨na, hna⟩ := distance_sqrt_of_ne_nan ha
    have hstep : nearestLoop q (a :: rest) Dist.dblMax none
        = nearestLoop q rest (distance a q) (some a) := by
      have hlt : Dist.lt (distance a q) Dist.dblMax = true := by simp [hna, Dist.lt]
      simp only [nearestLoop, hlt, if_true]
    have haa : Dist.le (distance a q) (distance a q) = true := by simp [hna, Dist.le]
    rcases nearestLoop_first_from q rest a ha (fun s hs => hl s (by simp [hs])) with
      ⟨hres, hall⟩ | ⟨pre, r, post, hsplit, hres, hra, hpre, hpost⟩
    · refine ⟨[], a, rest, rfl, by rw [hstep, hres], by simp, ?_⟩
      intro s hs
      rcases List.mem_cons.mp hs with h | h
      · rw [h]; exact haa
      · exact hall s h
    · refine ⟨a :: pre, r, post, by rw [hsplit]; rfl, by rw [hstep, hres], ?_, ?_⟩
      · intro s hs
        rcases List.mem_cons.mp hs with h | h
        · rw [h]; exact hra
        · exact hpre s h
      · intro s hs
        rcases List.mem_cons.mp hs with h | h
        · rw [h]
          cases hd : distance r q with
          | nan => rw [hd] at hra; simp [Dist.lt] at hra
          | sqrt n => simp [Dist.le]
          | dblMax => rw [hd] at hra; simp [Dist.lt] at hra
        · exact hpost s h

theorem Dist.le_of_lt {a b : Dist} (h : Dist.lt a b = true) : Dist.le a b = true := by
  cases a <;> cases b <;> simp_all [Dist.lt, Dist.le]
  omega

theorem Dist.not_le_of_lt {a b : Dist} (h : Dist.lt a b = true) : Dist.le b a = false := by
  cases a <;> cases b <;> simp_all [Dist.lt, Dist.le]

theorem Dist.not_lt_of_le {a b : Dist} (h : Dist.le a b = true) : Dist.lt b a = false := by
  cases a <;> cases b <;> simp_all [Dist.lt, Dist.le]

/-- C15 (as stated, refuted): the leaf holding (0,0,1,1) and (0,0,2,2) is not
empty, yet for the query (60001,0,60002,1) `nearestNeighbor` returns none of
its entries: both products `dx * dx` overflow, both distances are NaN and the
unassigned local is returned. -/
theorem c15_overflow_counterexample :
    ([⟨0, 0, 1, 1⟩, ⟨0, 0, 2, 2⟩] : List Rectangle) ≠ [] ∧
    distance ⟨0, 0, 1, 1⟩ ⟨60001, 0, 60002, 1⟩ = Dist.nan ∧
    distance ⟨0, 0, 2, 2⟩ ⟨60001, 0, 60002, 1⟩ = Dist.nan ∧
    nearestNeighbor (.mk true [⟨0, 0, 1, 1⟩, ⟨0, 0, 2, 2⟩] []) ⟨60001, 0, 60002, 1⟩ = none :=
  ⟨by decide, by decide, by decide, by decide⟩

/-- C15 (amended): for every non-empty leaf and every query to which each entry
has a numeric (non-NaN) distance, `nearestNeighbor` returns the entry at the
smallest index whose distance is the minimum over all entries: the entries
split as `pre ++ r :: post`, the result `r` sits at index `pre.length`, no entry
is nearer than `r`, and every entry before `r` is strictly farther. -/
theorem c15_first_found_minimum (rects : List Rectangle) (children : List Node)
    (q : Rectangle) (hne : rects ≠ []) (hnum : ∀ s ∈ rects, distance s q ≠ Dist.nan) :
    ∃ pre r post, rects = pre ++ r :: post ∧
      nearestNeighbor (.mk true rects children) q = some r ∧
      rects[pre.length]? = some r ∧
      (∀ s ∈ rects, Dist.le (distance r q) (distance s q) = true) ∧
      ∀ s ∈ pre, Dist.lt (distance r q) (distance s q) = true := by
  obtain ⟨pre, r, post, hsplit, hres, hpre, hpost⟩ := nearestLoop_first q rects hne hnum
  refine ⟨pre, r, post, hsplit, by rw [nearestNeighbor_leaf, hres], ?_, ?_, hpre⟩
  · rw [hsplit, List.getElem?_append_right (le_refl _)]
    simp
  · intro s hs
    rw [hsplit] at hs
    rcases List.mem_append.mp hs with h | h
    · exact Dist.le_of_lt (hpre s h)
    · exact hpost s h

/-- C15 witness: the demo leaf and the query (1,1,2,2), where the first two
entries tie at distance 0. -/
theorem c15_first_found_minimum_witness :
    ([⟨0, 0, 1, 1⟩, ⟨2, 2, 3, 3⟩, ⟨4, 4, 5, 5⟩] : List Rectangle) ≠ [] ∧
    (∀ s ∈ ([⟨0, 0, 1, 1⟩, ⟨2, 2, 3, 3⟩, ⟨4, 4, 5, 5⟩] : List Rectangle),
      distance s ⟨1, 1, 2, 2⟩ ≠ Dist.nan) ∧
    ∃ pre r post, ([⟨0, 0, 1, 1⟩, ⟨2, 2, 3, 3⟩, ⟨4, 4, 5, 5⟩] : List Rectangle)
        = pre ++ r :: post ∧
      nearestNeighbor (.mk true [⟨0, 0, 1, 1⟩, ⟨2, 2, 3, 3⟩, ⟨4, 4, 5, 5⟩] []) ⟨1, 1, 2, 2⟩
        = some r ∧
      ([⟨0, 0, 1, 1⟩, ⟨2, 2, 3, 3⟩, ⟨4, 4, 5, 5⟩] : List Rectangle)[pre.length]? = some r ∧
      (∀ s ∈ ([⟨0, 0, 1, 1⟩, ⟨2, 2, 3, 3⟩, ⟨4, 4, 5, 5⟩] : List Rectangle),
        Dist.le (distance r ⟨1, 1, 2, 2⟩) (distance s ⟨1, 1, 2, 2⟩) = true) ∧
      ∀ s ∈ pre, Dist.lt (distance r ⟨1, 1, 2, 2⟩) (distance s ⟨1, 1, 2, 2⟩) = true :=
  ⟨by decide, by decide,
    c15_first_found_minimum _ [] ⟨1, 1, 2, 2⟩ (by decide) (by decide)⟩

theorem nearestLoop_cons_lt (q : Rectangle) {a : Rectangle} {m : Dist}
    (rest : List Rectangle) (acc : Option Rectangle) (h : Dist.lt (distance a q) m = true) :
    nearestLoop q (a :: rest) m acc = nearestLoop q rest (distance a q) (some a) := by
  simp only [nearestLoop, h, if_true]

theorem nearestLoop_cons_not_lt (q : Rectangle) {a : Rectangle} {m : Dist}
    (rest : List Rectangle) (acc : Option Rectangle) (h : ¬ Dist.lt (distance a q) m = true) :
    nearestLoop q (a :: rest) m acc = nearestLoop q rest m acc := by
  simp only [nearestLoop, h]
  rfl

/-- The scan of a concatenation is the scan of the second part started from the
outcome of the first. -/
theorem nearestLoop_append (q : Rectangle) :
    ∀ (l1 l2 : List Rectangle) (acc : Option Rectangle),
      nearestLoop q (l1 ++ l2) (bestDist q acc) acc
        = nearestLoop q l2 (bestDist q (nearestLoop q l1 (bestDist q acc) acc))
            (nearestLoop q l1 (bestDist q acc) acc) := by
  intro l1
  induction l1 with
  | nil =>
    intro l2 acc
    rfl
  | cons a rest ih =>
    intro l2 acc
    by_cases hlt : Dist.lt (distance a q) (bestDist q acc) = true
    · rw [List.cons_append, nearestLoop_cons_lt q _ _ hlt, nearestLoop_cons_lt q _ _ hlt]
      exact ih l2 (some a)
    · rw [List.cons_append, nearestLoop_cons_not_lt q _ _ hlt,
        nearestLoop_cons_not_lt q _ _ hlt]
      exact ih l2 acc

/-- The scan of a list started from a current best equals the scan started
afresh, followed by one comparison of its outcome with that current best. -/
theorem nearestLoop_from (q : Rectangle) :
    ∀ (l : List Rectangle) (acc : Option Rectangle),
      (∀ s ∈ l, distance s q ≠ Dist.nan) →
      (∀ b, acc = some b → distance b q ≠ Dist.nan) →
      nearestLoop q l (bestDist q acc) acc =
        match nearestLoop q l Dist.dblMax none with
        | some r => if Dist.lt (distance r q) (bestDist q acc) = true then some r else acc
        | none => acc := by
  intro l
  induction l with
  | nil =>
    intro acc _ _
    rfl
  | cons a rest ih =>
    intro acc hl hacc
    have ha : distance a q ≠ Dist.nan := hl a (by simp)
    have hrest : ∀ s ∈ rest, distance s q ≠ Dist.nan := fun s hs => hl s (by simp [hs])
    obtain ⟨na, hna⟩ := distance_sqrt_of_ne_nan ha
    have hfresh : nearestLoop q (a :: rest) Dist.dblMax none
        = nearestLoop q rest (bestDist q (some a)) (some a) :=
      nearestLoop_cons_lt q rest none (by simp [hna, Dist.lt])
    have iha := ih (some a) hrest (fun b hb => by cases hb; exact ha)
    have ihacc := ih acc hrest hacc
    rw [hfresh, iha]
    by_cases hlt : Dist.lt (distance a q) (bestDist q acc) = true
    · rw [nearestLoop_cons_lt q rest acc hlt]
      have iha2 := iha
      simp only [bestDist] at iha2
      rw [iha2]
      cases hX : nearestLoop q rest Dist.dblMax none with
      | none => simp [hlt]
      | some r0 =>
        simp only
        by_cases h0 : Dist.lt (distance r0 q) (bestDist q (some a)) = true
        · have h0a : Dist.lt (distance r0 q) (distance a q) = true := h0
          have htr : Dist.lt (distance r0 q) (bestDist q acc) = true := by
            revert hlt h0a
            cases distance r0 q <;> cases distance a q <;> cases bestDist q acc <;>
              simp [Dist.lt]
            omega
          simp [h0, h0a, htr]
        · have h0a : ¬ Dist.lt (distance r0 q) (distance a q) = true := h0
          simp [h0, h0a, hlt]
    · rw [nearestLoop_cons_not_lt q rest acc hlt, ihacc]
      cases hX : nearestLoop q rest Dist.dblMax none with
      | none => simp [hlt]
      | some r0 =>
        simp only
        by_cases h0 : Dist.lt (distance r0 q) (bestDist q (some a)) = true
        · have h0a : Dist.lt (distance r0 q) (distance a q) = true := h0
          simp [h0, h0a]
        · have h0a : ¬ Dist.lt (distance r0 q) (distance a q) = true := h0
          have hr0 : distance r0 q ≠ Dist.nan := by
            rcases nearestLoop_mem q _ _ _ _ hX with h | h
            · cases h
            · exact hrest r0 h
          obtain ⟨n0, hn0⟩ := distance_sqrt_of_ne_nan hr0
          have hno : ¬ Dist.lt (distance r0 q) (bestDist q acc) = true := by
            revert hlt h0a
            rw [hn0, hna]
            cases bestDist q acc <;> simp [Dist.lt]
            omega
          simp [h0, h0a, hno, hlt]

theorem nearestChildren_cons (q : Rectangle) (child : Node) (rest : List Node) (m : Dist)
    (acc : Option Rectangle) (r : Rectangle) (h : nearestNeighbor child q = some r) :
    nearestChildren (child :: rest) q m acc =
      if Dist.lt (distance r q) m = true then nearestChildren rest q (distance r q) (some r)
      else nearestChildren rest q m acc := by
  simp only [nearestChildren, h]

mutual
/-- On a populated tree whose leaf entries all have a numeric distance to the
query, the recursive search equals the scan of a leaf run over all leaf entries
from left to right. -/
theorem nearestNeighbor_eq_scan (q : Rectangle) :
    ∀ n : Node, populated n = true → (∀ s ∈ leafEntries n, distance s q ≠ Dist.nan) →
      leafEntries n ≠ [] ∧
        nearestNeighbor n q = nearestLoop q (leafEntries n) Dist.dblMax none
  | .mk leaf rects children, hp, hnum => by
    cases leaf with
    | true =>
      simp only [populated, if_true, Bool.not_eq_true', List.isEmpty_eq_false] at hp
      simp only [leafEntries, if_true, nearestNeighbor]
      exact ⟨hp, trivial⟩
    | false =>
      simp only [populated, Bool.false_eq_true, if_false, Bool.and_eq_true,
        Bool.not_eq_true', List.isEmpty_eq_false] at hp
      simp only [leafEntries, Bool.false_eq_true, if_false] at hnum ⊢
      obtain ⟨hne, hall⟩ := nearestChildren_eq_scan q children hp.2 hnum
      refine ⟨hne hp.1, ?_⟩
      simp only [nearestNeighbor, Bool.false_eq_true, if_false]
      exact hall none (fun b hb => by cases hb)
/-- The loop over the children of an internal node, in the same situation. -/
theorem nearestChildren_eq_scan (q : Rectangle) :
    ∀ cs : List Node, populatedList cs = true →
      (∀ s ∈ leafEntriesList cs, distance s q ≠ Dist.nan) →
      (cs ≠ [] → leafEntriesList cs ≠ []) ∧
        ∀ acc : Option Rectangle, (∀ b, acc = some b → distance b q ≠ Dist.nan) →
          nearestChildren cs q (bestDist q acc) acc
            = nearestLoop q (leafEntriesList cs) (bestDist q acc) acc
  | [], _, _ => by
    refine ⟨fun h => absurd rfl h, ?_⟩
    intro acc _
    simp only [nearestChildren, leafEntriesList, nearestLoop]
  | child :: rest, hp, hnum => by
    simp only [populatedList, Bool.and_eq_true] at hp
    simp only [leafEntriesList] at hnum ⊢
    have hnumc : ∀ s ∈ leafEntries child, distance s q ≠ Dist.nan :=
      fun s hs => hnum s (List.mem_append.mpr (Or.inl hs))
    have hnumr : ∀ s ∈ leafEntriesList rest, distance s q ≠ Dist.nan :=
      fun s hs => hnum s (List.mem_append.mpr (Or.inr hs))
    obtain ⟨hnec, hc⟩ := nearestNeighbor_eq_scan q child hp.1 hnumc
    obtain ⟨_, hr⟩ := nearestChildren_eq_scan q rest hp.2 hnumr
    refine ⟨fun _ h => hnec (List.append_eq_nil.mp h).1, ?_⟩
    intro acc hacc
    obtain ⟨rc, hrc, hmem, _⟩ := nearestLoop_start q (leafEntries child) hnec hnumc
    rw [hrc] at hc
    rw [nearestChildren_cons q child rest _ acc rc hc, nearestLoop_append,
      nearestLoop_from q (leafEntries child) acc hnumc hacc, hrc]
    simp only
    by_cases hlt : Dist.lt (distance rc q) (bestDist q acc) = true
    · simp only [hlt, if_true]
      exact hr (some rc) (fun b hb => by cases hb; exact hnumc rc hmem)
    · simp only [hlt]
      exact hr acc hacc
end

/-- On a non-empty list with numeric distances the scan of a leaf computes the
first-minimum scan. -/
theorem nearestLoop_eq_firstMinScan (q : Rectangle) (l : List Rectangle) (hne : l ≠ [])
    (hl : ∀ s ∈ l, distance s q ≠ Dist.nan) :
    nearestLoop q l Dist.dblMax none = firstMinScan q l := by
  obtain ⟨pre, r, post, hsplit, hres, hpre, hpost⟩ := nearestLoop_first q l hne hl
  have hall : ∀ s ∈ l, Dist.le (distance r q) (distance s q) = true := by
    intro s hs
    rw [hsplit] at hs
    rcases List.mem_append.mp hs with h | h
    · exact Dist.le_of_lt (hpre s h)
    · exact hpost s h
  have hrmem : r ∈ l := by rw [hsplit]; simp
  rw [hres]
  symm
  unfold firstMinScan
  rw [List.find?_eq_some]
  refine ⟨?_, pre, post, hsplit, ?_⟩
  · rw [List.all_eq_true]
    intro s hs
    exact hall s hs
  · intro a ha
    rw [Bool.not_eq_true']
    by_contra hcon
    rw [Bool.not_eq_false, List.all_eq_true] at hcon
    have h1 := hcon r hrmem
    rw [Dist.not_le_of_lt (hpre a ha)] at h1
    cases h1

/-- C16 (as stated, refuted): the internal node over the single leaf holding
(0,0,1,1) has a rectangle in every leaf and a child in every internal node, yet
for the query (65001,0,65002,1) `nearestNeighbor` returns no leaf entry: the
product `dx * dx` overflows, the only distance is NaN and the leaf hands back its
unassigned local. -/
theorem c16_overflow_counterexample :
    populated oneLeafTree = true ∧ leafEntries oneLeafTree = [⟨0, 0, 1, 1⟩] ∧
    distance ⟨0, 0, 1, 1⟩ ⟨65001, 0, 65002, 1⟩ = Dist.nan ∧
    nearestNeighbor oneLeafTree ⟨65001, 0, 65002, 1⟩ = none :=
  ⟨by decide, by decide, by decide, by decide⟩

/-- C16 (amended): on every tree in which each leaf holds a rectangle and each
internal node has a child, and for every query to which each leaf entry has a
numeric (non-NaN) distance, `nearestNeighbor` returns what the first-minimum
scan returns on the left-to-right concatenation of the leaf entries; the result
is a leaf entry and no leaf entry is strictly nearer to the query. -/
theorem c16_search_equals_flat_scan (node : Node) (q : Rectangle)
    (hpop : populated node = true)
    (hnum : ∀ s ∈ leafEntries node, distance s q ≠ Dist.nan) :
    nearestNeighbor node q = firstMinScan q (leafEntries node) ∧
    ∃ r, nearestNeighbor node q = some r ∧ r ∈ leafEntries node ∧
      ∀ s ∈ leafEntries node, Dist.lt (distance s q) (distance r q) = false := by
  obtain ⟨hne, hscan⟩ := nearestNeighbor_eq_scan q node hpop hnum
  obtain ⟨r, hr, hmem, hmin⟩ := nearestLoop_start q (leafEntries node) hne hnum
  refine ⟨?_, r, by rw [hscan, hr], hmem, ?_⟩
  · rw [hscan]
    exact nearestLoop_eq_firstMinScan q _ hne hnum
  · intro s hs
    exact Dist.not_lt_of_le (hmin s hs)

/-- C16 witness: a tree of two leaves and the query (1,1,2,2). -/
theorem c16_search_equals_flat_scan_witness :
    populated twoLeafTree = true ∧
    (∀ s ∈ leafEntries twoLeafTree, distance s ⟨1, 1, 2, 2⟩ ≠ Dist.nan) ∧
    nearestNeighbor twoLeafTree ⟨1, 1, 2, 2⟩
      = firstMinScan ⟨1, 1, 2, 2⟩ (leafEntries twoLeafTree) ∧
    ∃ r, nearestNeighbor twoLeafTree ⟨1, 1, 2, 2⟩ = some r ∧ r ∈ leafEntries twoLeafTree ∧
      ∀ s ∈ leafEntries twoLeafTree,
        Dist.lt (distance s ⟨1, 1, 2, 2⟩) (distance r ⟨1, 1, 2, 2⟩) = false :=
  ⟨by decide, by decide,
    c16_search_equals_flat_scan twoLeafTree ⟨1, 1, 2, 2⟩ (by decide) (by decide)⟩

theorem chooseLoop_cons_none (rect : Rectangle) (child : Node) (rest : List Node) (i : Nat)
    (best : Option Nat) (h : child.rects ≠ []) :
    chooseLoop rect (child :: rest) i none best
      = chooseLoop rect rest (i + 1) (some (increaseOf rect child)) (some i) := by
  obtain ⟨lf, rs, cs⟩ := child
  cases rs with
  | nil => exact absurd rfl h
  | cons r0 tl => simp only [chooseLoop, increaseOf, Node.rects]

theorem chooseLoop_cons_some (rect : Rectangle) (child : Node) (rest : List Node) (i : Nat)
    (m : Int) (best : Option Nat) (h : child.rects ≠ []) :
    chooseLoop rect (child :: rest) i (some m) best
      = if increaseOf rect child < m then
          chooseLoop rect rest (i + 1) (some (increaseOf rect child)) (some i)
        else chooseLoop rect rest (i + 1) (some m) best := by
  obtain ⟨lf, rs, cs⟩ := child
  cases rs with
  | nil => exact absurd rfl h
  | cons r0 tl => simp only [chooseLoop, increaseOf, Node.rects]

/-- The loop of `chooseSubtree` started with a current best `b` of increase
`m`: either `b` survives and no child has a smaller increase, or the result is
the first child among those of least increase, which is smaller than `m`. -/
theorem chooseLoop_first_from (rect : Rectangle) :
    ∀ (l : List Node) (i0 : Nat) (m : Int) (b : Nat), (∀ c ∈ l, c.rects ≠ []) →
      (chooseLoop rect l i0 (some m) (some b) = some (some b) ∧
        ∀ c ∈ l, m ≤ increaseOf rect c) ∨
      ∃ pre c post, l = pre ++ c :: post ∧
        chooseLoop rect l i0 (some m) (some b) = some (some (i0 + pre.length)) ∧
        increaseOf rect c < m ∧
        (∀ s ∈ pre, increaseOf rect c < increaseOf rect s) ∧
        ∀ s ∈ post, increaseOf rect c ≤ increaseOf rect s := by
  intro l
  induction l with
  | nil =>
    intro i0 m b _
    exact Or.inl ⟨rfl, by simp⟩
  | cons a rest ih =>
    intro i0 m b hl
    have ha : a.rects ≠ [] := hl a (by simp)
    have hrest : ∀ c ∈ rest, c.rects ≠ [] := fun c hc => hl c (by simp [hc])
    rw [chooseLoop_cons_some rect a rest i0 m (some b) ha]
    by_cases hlt : increaseOf rect a < m
    · rw [if_pos hlt]
      right
      rcases ih (i0 + 1) (increaseOf rect a) i0 hrest with
        ⟨hres, hall⟩ | ⟨pre, c, post, hsplit, hres, hca, hpre, hpost⟩
      · exact ⟨[], a, rest, rfl, by rw [hres]; rfl, hlt, by simp, hall⟩
      · refine ⟨a :: pre, c, post, by rw [hsplit]; rfl, ?_, by omega, ?_, hpost⟩
        · rw [hres, List.length_cons]
          congr 2
          omega
        · intro s hs
          rcases List.mem_cons.mp hs with h | h
          · rw [h]; exact hca
          · exact hpre s h
    · rw [if_neg hlt]
      rcases ih (i0 + 1) m b hrest with
        ⟨hres, hall⟩ | ⟨pre, c, post, hsplit, hres, hcm, hpre, hpost⟩
      · left
        refine ⟨hres, ?_⟩
        intro s hs
        rcases List.mem_cons.mp hs with h | h
        · rw [h]; omega
        · exact hall s h
      · right
        refine ⟨a :: pre, c, post, by rw [hsplit]; rfl, ?_, hcm, ?_, hpost⟩
        · rw [hres, List.length_cons]
          congr 2
          omega
        · intro s hs
          rcases List.mem_cons.mp hs with h | h
          · rw [h]; omega
          · exact hpre s h

/-- C17: for an internal node with at least one child, each child holding a
rectangle, `chooseSubtree` returns a child, not null: the children split as
`pre ++ best :: post`, the result points at index `pre.length`, that is at
`best`; no child has a smaller area increase than `best`, and every child
before it has a strictly larger one. -/
theorem c17_chooseSubtree_leftmost_least (node : Node) (rect : Rectangle)
    (_hleaf : node.leaf = false) (hne : node.children ≠ [])
    (hrects : ∀ c ∈ node.children, c.rects ≠ []) :
    ∃ pre best post, node.children = pre ++ best :: post ∧
      chooseSubtree node rect = some (some pre.length) ∧
      node.children[pre.length]? = some best ∧
      (∀ c ∈ node.children, increaseOf rect best ≤ increaseOf rect c) ∧
      ∀ c ∈ pre, increaseOf rect best < increaseOf rect c := by
  have key : ∃ pre best post, node.children = pre ++ best :: post ∧
      chooseSubtree node rect = some (some pre.length) ∧
      (∀ c ∈ pre, increaseOf rect best < increaseOf rect c) ∧
      ∀ c ∈ post, increaseOf rect best ≤ increaseOf rect c := by
    unfold chooseSubtree
    cases hch : node.children with
    | nil => exact absurd hch hne
    | cons a rest =>
      rw [hch] at hrects
      have ha : a.rects ≠ [] := hrects a (by simp)
      have hrest : ∀ c ∈ rest, c.rects ≠ [] := fun c hc => hrects c (by simp [hc])
      rw [chooseLoop_cons_none rect a rest 0 none ha]
      rcases chooseLoop_first_from rect rest 1 (increaseOf rect a) 0 hrest with
        ⟨hres, hall⟩ | ⟨pre, c, post, hsplit, hres, hca, hpre, hpost⟩
      · exact ⟨[], a, rest, rfl, by rw [hres]; rfl, by simp, hall⟩
      · refine ⟨a :: pre, c, post, by rw [hsplit]; rfl, ?_, ?_, hpost⟩
        · rw [hres, List.length_cons]
          congr 2
          omega
        · intro s hs
          rcases List.mem_cons.mp hs with h | h
          · rw [h]; exact hca
          · exact hpre s h
  obtain ⟨pre, best, post, hsplit, hres, hpre, hpost⟩ := key
  refine ⟨pre, best, post, hsplit, hres, ?_, ?_, hpre⟩
  · rw [hsplit, List.getElem?_append_right (le_refl _)]
    simp
  · intro c hc
    rw [hsplit] at hc
    rcases List.mem_append.mp hc with h | h
    · exact le_of_lt (hpre c h)
    · rcases List.mem_cons.mp h with h1 | h1
      · rw [h1]
      · exact hpost c h1

/-- C17 witness: three children with area increases 8, 0, 0 for (0,0,1,1); the
second child, the first of least increase, is chosen. -/
theorem c17_chooseSubtree_leftmost_least_witness :
    threeChildNode.leaf = false ∧ threeChildNode.children ≠ [] ∧
    (∀ c ∈ threeChildNode.children, c.rects ≠ []) ∧
    ∃ pre best post, threeChildNode.children = pre ++ best :: post ∧
      chooseSubtree threeChildNode ⟨0, 0, 1, 1⟩ = some (some pre.length) ∧
      threeChildNode.children[pre.length]? = some best ∧
      (∀ c ∈ threeChildNode.children,
        increaseOf ⟨0, 0, 1, 1⟩ best ≤ increaseOf ⟨0, 0, 1, 1⟩ c) ∧
      ∀ c ∈ pre, increaseOf ⟨0, 0, 1, 1⟩ best < increaseOf ⟨0, 0, 1, 1⟩ c :=
  ⟨rfl, by simp [threeChildNode, Node.children],
    by simp [threeChildNode, Node.children, Node.rects],
    c17_chooseSubtree_leftmost_least threeChildNode ⟨0, 0, 1, 1⟩ rfl
      (by simp [threeChildNode, Node.children])
      (by simp [threeChildNode, Node.children, Node.rects])⟩

/-- The loop of `remove` over children that are non-empty leaves: either
nothing is found and the children stay as they are, or exactly one child `c`
loses the first entry equal to `rect`, and `c` is dropped when that empties it. -/
theorem removeLoop_leaves (rect : Rectangle) :
    ∀ children : List Node, (∀ c ∈ children, c.leaf = true ∧ c.rects ≠ []) →
      removeLoop children rect = some (false, children) ∨
      ∃ pre c post, children = pre ++ c :: post ∧ rect ∈ c.rects ∧
        ((c.rects.erase rect = [] ∧ removeLoop children rect = some (true, pre ++ post)) ∨
         (c.rects.erase rect ≠ [] ∧
          removeLoop children rect
            = some (true, pre ++ Node.mk true (c.rects.erase rect) c.children :: post))) := by
  intro children
  induction children with
  | nil =>
    intro _
    exact Or.inl rfl
  | cons a rest ih =>
    intro h
    have hrest : ∀ c ∈ rest, c.leaf = true ∧ c.rects ≠ [] := fun c hc => h c (by simp [hc])
    obtain ⟨ha1, ha2⟩ := h a (by simp)
    obtain ⟨lf, rs, cs⟩ := a
    simp only [Node.leaf] at ha1
    simp only [Node.rects] at ha2
    subst ha1
    cases rs with
    | nil => exact absurd rfl ha2
    | cons r0 tl =>
      have hskip : (¬ overlap r0 rect = true ∨ rect ∉ r0 :: tl) →
          removeLoop (Node.mk true (r0 :: tl) cs :: rest) rect =
            match removeLoop rest rect with
            | some (found, rest1) => some (found, Node.mk true (r0 :: tl) cs :: rest1)
            | none => none := by
        intro hcase
        by_cases hov : overlap r0 rect = true
        · have hmem : rect ∉ r0 :: tl := by
            rcases hcase with h1 | h1
            · exact absurd hov h1
            · exact h1
          simp only [removeLoop, Node.rects, hov, if_true, remove_leaf, hmem, if_false]
        · simp only [removeLoop, Node.rects, hov]
          rfl
      by_cases hhit : overlap r0 rect = true ∧ rect ∈ r0 :: tl
      · obtain ⟨hov, hmem⟩ := hhit
        right
        refine ⟨[], Node.mk true (r0 :: tl) cs, rest, rfl, hmem, ?_⟩
        by_cases hemp : (r0 :: tl).erase rect = []
        · left
          refine ⟨hemp, ?_⟩
          simp only [removeLoop, Node.rects, hov, if_true, remove_leaf, hmem, hemp,
            List.isEmpty_nil, List.nil_append]
        · right
          refine ⟨hemp, ?_⟩
          have hne : ((r0 :: tl).erase rect).isEmpty = false := by
            cases hE : (r0 :: tl).erase rect with
            | nil => exact absurd hE hemp
            | cons _ _ => rfl
          simp only [removeLoop, Node.rects, hov, if_true, remove_leaf, hmem, hne,
            List.nil_append, Node.children, Bool.false_eq_true, if_false]
      · have hcase : ¬ overlap r0 rect = true ∨ rect ∉ r0 :: tl := by
          by_cases hov : overlap r0 rect = true
          · exact Or.inr (fun hm => hhit ⟨hov, hm⟩)
          · exact Or.inl hov
        rw [hskip hcase]
        rcases ih hrest with hno | ⟨pre, c, post, hsplit, hmem, hres⟩
        · left
          rw [hno]
        · right
          refine ⟨Node.mk true (r0 :: tl) cs :: pre, c, post, by rw [hsplit]; rfl, hmem, ?_⟩
          rcases hres with ⟨hemp, hres⟩ | ⟨hemp, hres⟩
          · left
            refine ⟨hemp, ?_⟩
            rw [hres]
            rfl
          · right
            refine ⟨hemp, ?_⟩
            rw [hres]
            rfl

/-- C18: for an internal node whose children are all non-empty leaves,
`remove` returns; every child left in the node is non-empty; when the result is
false the children are unchanged; when it is true exactly one child lost the
first entry equal to `rect`, and that child is detached precisely when this
emptied it, all other children staying as they were. -/
theorem c18_collapse_on_deletion (rects : List Rectangle) (children : List Node)
    (rect : Rectangle) (h : ∀ c ∈ children, c.leaf = true ∧ c.rects ≠ []) :
    ∃ found children1,
      remove (.mk false rects children) rect = some (found, .mk false rects children1) ∧
      (∀ c ∈ children1, c.rects ≠ []) ∧
      (found = false → children1 = children) ∧
      (found = true → ∃ pre c post, children = pre ++ c :: post ∧ rect ∈ c.rects ∧
        ((c.rects.erase rect = [] ∧ children1 = pre ++ post) ∨
         (c.rects.erase rect ≠ [] ∧
          children1 = pre ++ Node.mk true (c.rects.erase rect) c.children :: post))) := by
  have hrem : ∀ found children1, removeLoop children rect = some (found, children1) →
      remove (.mk false rects children) rect = some (found, .mk false rects children1) := by
    intro found children1 hloop
    simp only [remove, Bool.false_eq_true, if_false, hloop]
  rcases removeLoop_leaves rect children h with hno | ⟨pre, c, post, hsplit, hmem, hres⟩
  · refine ⟨false, children, hrem _ _ hno, fun c hc => (h c hc).2, fun _ => rfl, ?_⟩
    intro hcon
    cases hcon
  · have hpre : ∀ s ∈ pre, s.rects ≠ [] := fun s hs => (h s (by rw [hsplit]; simp [hs])).2
    have hpost : ∀ s ∈ post, s.rects ≠ [] := fun s hs => (h s (by rw [hsplit]; simp [hs])).2
    rcases hres with ⟨hemp, hres⟩ | ⟨hemp, hres⟩
    · refine ⟨true, pre ++ post, hrem _ _ hres, ?_, ?_, ?_⟩
      · intro s hs
        rcases List.mem_append.mp hs with h1 | h1
        · exact hpre s h1
        · exact hpost s h1
      · intro hcon
        cases hcon
      · intro _
        exact ⟨pre, c, post, hsplit, hmem, Or.inl ⟨hemp, rfl⟩⟩
    · refine ⟨true, pre ++ Node.mk true (c.rects.erase rect) c.children :: post,
        hrem _ _ hres, ?_, ?_, ?_⟩
      · intro s hs
        rcases List.mem_append.mp hs with h1 | h1
        · exact hpre s h1
        · rcases List.mem_cons.mp h1 with h2 | h2
          · rw [h2]
            exact hemp
          · exact hpost s h2
      · intro hcon
        cases hcon
      · intro _
        exact ⟨pre, c, post, hsplit, hmem, Or.inr ⟨hemp, rfl⟩⟩

/-- C18 witness: removing (4,4,5,5) empties and detaches the second leaf. -/
theorem c18_collapse_on_deletion_witness :
    (∀ c ∈ collapseNode.children, c.leaf = true ∧ c.rects ≠ []) ∧
    ∃ found children1,
      remove (.mk false collapseNode.rects collapseNode.children) ⟨4, 4, 5, 5⟩
        = some (found, .mk false collapseNode.rects children1) ∧
      (∀ c ∈ children1, c.rects ≠ []) ∧
      (found = false → children1 = collapseNode.children) ∧
      (found = true → ∃ pre c post, collapseNode.children = pre ++ c :: post ∧
        (⟨4, 4, 5, 5⟩ : Rectangle) ∈ c.rects ∧
        ((c.rects.erase ⟨4, 4, 5, 5⟩ = [] ∧ children1 = pre ++ post) ∨
         (c.rects.erase ⟨4, 4, 5, 5⟩ ≠ [] ∧
          children1 = pre ++ Node.mk true (c.rects.erase ⟨4, 4, 5, 5⟩) c.children :: post))) :=
  ⟨by simp [collapseNode, Node.children, Node.rects, Node.leaf],
    c18_collapse_on_deletion collapseNode.rects collapseNode.children ⟨4, 4, 5, 5⟩
      (by simp [collapseNode, Node.children, Node.rects, Node.leaf])⟩

/-- The index emptied again is reachable: insert (0,0,1,1), then remove it. -/
theorem reachable_emptied : Reachable ⟨.mk true [] []⟩ :=
  Reachable.remove (t := ⟨.mk true [⟨0, 0, 1, 1⟩] []⟩) ⟨0, 0, 1, 1⟩
    (Reachable.insert (t := RTree.new) ⟨0, 0, 1, 1⟩ Reachable.new rfl) rfl

/-- C19 (as stated, refuted): on the freshly constructed, empty index
`nearestNeighbor((1,1,2,2))` does not return (0,0,0,0): the loop body never
runs and the local `nearest`, declared without an initialiser, is returned
unassigned. -/
theorem c19_empty_counterexample :
    RTree.new.stored = [] ∧
    RTree.new.nearestNeighbor ⟨1, 1, 2, 2⟩ ≠ some ⟨0, 0, 0, 0⟩ ∧
    RTree.new.nearestNeighbor ⟨1, 1, 2, 2⟩ = none :=
  ⟨by decide, by decide, by decide⟩

/-- C19 (amended): on every reachable index that stores nothing, freshly
constructed or emptied by removals, `nearestNeighbor` signals no error for any
query and returns its local `nearest` without ever having assigned it, so no
particular rectangle is returned. -/
theorem c19_empty_returns_unassigned (t : RTree) (ht : Reachable t) (hempty : t.stored = [])
    (q : Rectangle) : t.nearestNeighbor q = none := by
  obtain ⟨rects, rfl, _⟩ := reachable_shape ht
  rw [stored_leaf] at hempty
  subst hempty
  simp only [RTree.nearestNeighbor, nearestNeighbor_leaf, nearestLoop]

/-- C19 witness: the index emptied by a removal, and the query (1,1,2,2). -/
theorem c19_empty_returns_unassigned_witness :
    Reachable ⟨.mk true [] []⟩ ∧ RTree.stored ⟨.mk true [] []⟩ = [] ∧
    RTree.nearestNeighbor ⟨.mk true [] []⟩ ⟨1, 1, 2, 2⟩ = none :=
  ⟨reachable_emptied, by decide,
    c19_empty_returns_unassigned _ reachable_emptied (by decide) ⟨1, 1, 2, 2⟩⟩

/-- C20: in every reachable index the root is a leaf with an empty child list
and it is the only node below the root, so each operation on the root runs its
leaf branch: `insert` appends and, beyond five entries, splits; `remove`
searches the root's own entries; `nearestNeighbor` scans them. -/
theorem c20_tree_never_grows (t : RTree) (ht : Reachable t) :
    t.root.leaf = true ∧ t.root.children = [] ∧
    (∀ n, Subnode n t.root → n = t.root) ∧
    (∀ rect, insert t.root rect =
      if 5 < (t.root.rects ++ [rect]).length then
        some (.mk true ((sortRects (t.root.rects ++ [rect])).take
                ((t.root.rects ++ [rect]).length / 2)) [],
              [.mk false ((sortRects (t.root.rects ++ [rect])).drop
                ((t.root.rects ++ [rect]).length / 2)) []])
      else some (.mk true (t.root.rects ++ [rect]) [], [])) ∧
    (∀ rect, remove t.root rect =
      if rect ∈ t.root.rects then some (true, .mk true (t.root.rects.erase rect) [])
      else some (false, t.root)) ∧
    ∀ q, t.nearestNeighbor q = nearestLoop q t.root.rects Dist.dblMax none := by
  obtain ⟨rects, rfl, _⟩ := reachable_shape ht
  refine ⟨rfl, rfl, fun n hn => subnode_of_no_children hn rfl, ?_, ?_, ?_⟩
  · intro rect
    exact insert_leaf rects [] rect
  · intro rect
    exact remove_leaf rects [] rect
  · intro q
    exact nearestNeighbor_leaf rects [] q

/-- C20 witness: the index holding five rectangles. -/
theorem c20_tree_never_grows_witness :
    Reachable fullTree ∧
    (fullTree.root.leaf = true ∧ fullTree.root.children = [] ∧
    (∀ n, Subnode n fullTree.root → n = fullTree.root) ∧
    (∀ rect, insert fullTree.root rect =
      if 5 < (fullTree.root.rects ++ [rect]).length then
        some (.mk true ((sortRects (fullTree.root.rects ++ [rect])).take
                ((fullTree.root.rects ++ [rect]).length / 2)) [],
              [.mk false ((sortRects (fullTree.root.rects ++ [rect])).drop
                ((fullTree.root.rects ++ [rect]).length / 2)) []])
      else some (.mk true (fullTree.root.rects ++ [rect]) [], [])) ∧
    (∀ rect, remove fullTree.root rect =
      if rect ∈ fullTree.root.rects then
        some (true, .mk true (fullTree.root.rects.erase rect) [])
      else some (false, fullTree.root)) ∧
    ∀ q, fullTree.nearestNeighbor q = nearestLoop q fullTree.root.rects Dist.dblMax none) :=
  ⟨reachable_fullTree, c20_tree_never_grows fullTree reachable_fullTree⟩

end Lab3
